import Mathlib

/-!
Verification of the swagger-mongoose schema compiler (`src/lib/index.js`).

The compiler walks a JSON-shaped interface-definition document and emits, per
named definition, a flat property map consumable by mongoose.  We shallowly
embed the JavaScript source: JSON-shaped values become the inductive `Val`
(objects are insertion-ordered association lists, matching the iteration
order of string-keyed JavaScript objects), JavaScript mutation becomes
explicit state passing, thrown exceptions become `Except MErr`, and the
unbounded mutual recursion of `getSchema` / `getSchemaProperty` /
`processRef` is driven by an explicit fuel parameter (fuel exhaustion is the
distinguished error `MErr.fuelOut`, never confused with a genuine failure of
the source program).

Modelling conventions, noted once here:
* `Val.null` stands for both JavaScript `undefined` and `null` (the source
  never distinguishes them on the paths modelled here).
* Reading a field of a missing/primitive value yields `Val.null` except where
  JavaScript would throw a `TypeError`; those sites return `MErr.typeError`.
* `lodash` iteration (`_.forEach`, `_.each`, `_.extend`) over plain objects
  is iteration over the association list; `_.extend` / `Object.assign` over
  a non-object source contributes nothing (string sources, whose character
  indices lodash would copy, do not arise in the compiler's inputs).
* Loading a validator module from disk (`require`) is external; the registry
  is modelled as the resolved path, and a named validator resolves to the
  opaque function value `Val.fn path name`.
* The mongoose `Schema` constructor, `schema.index` and `mongoose.model` are
  external collaborators; they are modelled as the opaque records `MSchema`
  (property map + options + registered indexes) and the `models` map that
  repeats each schema under its registration key.
-/

/-- Storage-layer constructor values (`Number`, `String`, `Boolean`, `Date`,
`Schema.Types.ObjectId`) that the compiler writes into property maps. -/
inductive MTy where
  | number
  | string
  | boolean
  | date
  | objectId
deriving DecidableEq, Repr

/-- JSON-shaped JavaScript values as the compiler sees them.  `obj` carries
an insertion-ordered association list; `arr` additionally carries the
string-keyed expando fields a JavaScript array can receive (the source sets
`.required` on arrays via `fillRequired`); `ctor` is one of the storage-type
constructor values; `fn` is an opaque validator function. -/
inductive Val where
  | null
  | bool (b : Bool)
  | num (n : Int)
  | str (s : String)
  | ctor (t : MTy)
  | fn (dir : String) (name : String)
  | arr (items : List Val) (extra : List (String × Val))
  | obj (fields : List (String × Val))

/-- Error kinds raised by the compiler.  `unrecognizedFormat` and
`unrecognizedType` are the two `propertyMap` throws (carrying the offending
`format` / `type` value interpolated into the source's message);
`malformedReference` is the failure of matching a `$ref` string against
`^#\/definitions\/(\w*)$` (in the source this surfaces as the `TypeError` of
indexing the `null` returned by `String.match`); `invalidInput` covers the
missing/invalid spec throws of `compile`/`convertToJSON`; `typeError` is any
other JavaScript `TypeError` from dereferencing `undefined`;
`externalDecode` marks the delegated JSON-text decode that we do not model;
`fuelOut` is exhaustion of the fuel driving the embedded recursion (not a
behaviour of the source). -/
inductive MErr where
  | unrecognizedFormat (format : Val)
  | unrecognizedType (ty : Val)
  | malformedReference
  | invalidInput
  | typeError
  | externalDecode
  | fuelOut

mutual

/-- Structural equality on values, standing in for JavaScript strict /
SameValueZero equality.  It coincides with the JavaScript notion on the
primitives (strings, numbers, booleans) that actually populate `required`
lists and `enum` sets; for object values JavaScript compares identities,
which a structural embedding cannot observe, so structurally equal objects
are identified.  Used only for `indexOf`/`Set` membership. -/
def Val.beq : Val → Val → Bool
  | .null, .null => true
  | .bool a, .bool b => a == b
  | .num a, .num b => a == b
  | .str a, .str b => a == b
  | .ctor a, .ctor b => decide (a = b)
  | .fn d1 n1, .fn d2 n2 => d1 == d2 && n1 == n2
  | .arr i1 e1, .arr i2 e2 => Val.beqList i1 i2 && Val.beqFields e1 e2
  | .obj f1, .obj f2 => Val.beqFields f1 f2
  | _, _ => false

/-- Pointwise `Val.beq` on lists. -/
def Val.beqList : List Val → List Val → Bool
  | [], [] => true
  | a :: as, b :: bs => Val.beq a b && Val.beqList as bs
  | _, _ => false

/-- Pointwise `Val.beq` on association lists. -/
def Val.beqFields : List (String × Val) → List (String × Val) → Bool
  | [], [] => true
  | (k1, v1) :: r1, (k2, v2) :: r2 =>
    k1 == k2 && Val.beq v1 v2 && Val.beqFields r1 r2
  | _, _ => false

end

/-- Field read on an association list: JavaScript `o[key]`, `undefined`
(here `Val.null`) when absent. -/
def getF : List (String × Val) → String → Val
  | [], _ => .null
  | (k, v) :: rest, key => if k = key then v else getF rest key

/-- Field write on an association list: JavaScript `o[key] = v`.  An existing
key keeps its position; a new key is appended, matching JavaScript property
order for string keys. -/
def setF : List (String × Val) → String → Val → List (String × Val)
  | [], key, v => [(key, v)]
  | (k, w) :: rest, key, v =>
    if k = key then (k, v) :: rest else (k, w) :: setF rest key v

/-- Field removal: JavaScript `delete o[key]`. -/
def delF : List (String × Val) → String → List (String × Val)
  | [], _ => []
  | (k, w) :: rest, key =>
    if k = key then delF rest key else (k, w) :: delF rest key

/-- JavaScript property read `v[key]`, total: missing fields and reads on
primitives give `Val.null`.  Reads that would throw on `null`/`undefined`
are handled at their call sites. -/
def Val.get (v : Val) (key : String) : Val :=
  match v with
  | .obj fields => getF fields key
  | .arr _ extra => getF extra key
  | _ => .null

/-- JavaScript property write `v[key] = x`.  Writing to a primitive is a
silent no-op (non-strict mode); writing to an array lands in its expando
fields. -/
def Val.set (v : Val) (key : String) (x : Val) : Val :=
  match v with
  | .obj fields => .obj (setF fields key x)
  | .arr items extra => .arr items (setF extra key x)
  | other => other

/-- JavaScript `delete v[key]`. -/
def Val.del (v : Val) (key : String) : Val :=
  match v with
  | .obj fields => .obj (delF fields key)
  | .arr items extra => .arr items (delF extra key)
  | other => other

/-- JavaScript truthiness. -/
def truthy : Val → Bool
  | .null => false
  | .bool b => b
  | .num n => n != 0
  | .str s => s ≠ ""
  | _ => true

/-- JavaScript `a || b`. -/
def jsOr (a b : Val) : Val := if truthy a then a else b

/-- `_.extend` / `Object.assign` of one source object's fields over a base
association list (later writes win; key order follows JavaScript). -/
def extendFields (base : List (String × Val)) : List (String × Val) → List (String × Val)
  | [] => base
  | (k, v) :: rest => extendFields (setF base k v) rest

/-- `_.extend` / `Object.assign` with an arbitrary source value: object and
array-expando sources contribute their string-keyed fields, every other
source contributes nothing. -/
def extendV (base : List (String × Val)) (src : Val) : List (String × Val) :=
  match src with
  | .obj fields => extendFields base fields
  | .arr _ extra => extendFields base extra
  | _ => base

/-- The property keys of an association list. -/
def keysOf (l : List (String × Val)) : List String := l.map Prod.fst

/-- Whether a value is `null`/`undefined`. -/
def isNullV : Val → Bool
  | .null => true
  | _ => false

/-- `_.isArray` / `Array.isArray`. -/
def isArrV : Val → Bool
  | .arr _ _ => true
  | _ => false

/-- JavaScript strict equality `v === 's'` against a string literal. -/
def isStr (v : Val) (s : String) : Bool :=
  match v with
  | .str t => t = s
  | _ => false

/-- JavaScript strict equality `v === false`. -/
def isFalseLit (v : Val) : Bool :=
  match v with
  | .bool b => !b
  | _ => false

/-- `allowedTypes` (source lines 6-18). -/
def allowedTypes : List String :=
  ["number", "integer", "long", "float", "double", "string", "password",
   "boolean", "date", "dateTime", "array"]

/-- `isAllowedType` (source line 87): membership of a *string* type tag in
`allowedTypes` (a non-string tag is never found by `indexOf`). -/
def isAllowedType (t : Val) : Bool :=
  match t with
  | .str s => allowedTypes.contains s
  | _ => false

/-- `isSimpleSchema` (source line 83): `schema.type && isAllowedType(schema.type)`. -/
def isSimpleSchema (schema : Val) : Bool :=
  truthy (schema.get "type") && isAllowedType (schema.get "type")

/-- `isMongodbReserved` (source line 190): the reserved storage-engine field
names `_id` (identity) and `__v` (version). -/
def isMongodbReserved (fieldKey : String) : Bool :=
  fieldKey = "_id" || fieldKey = "__v"

/-- The Type Mapper `propertyMap` (source lines 31-61).  Recursion on
`property.items` for arrays is driven by fuel; calling it on
`null`/`undefined` reproduces the JavaScript `TypeError` of reading
`property.type`. -/
def propertyMap : Nat → Val → Except MErr Val
  | 0, _ => .error .fuelOut
  | fuel + 1, property =>
    if isNullV property then .error .typeError
    else
      let t := property.get "type"
      if isStr t "number" then
        let f := property.get "format"
        if isStr f "integer" || isStr f "long" || isStr f "float" ||
           isStr f "double" then .ok (.ctor .number)
        else .error (.unrecognizedFormat f)
      else if isStr t "integer" || isStr t "long" || isStr t "float" ||
              isStr t "double" then .ok (.ctor .number)
      else if isStr t "string" || isStr t "password" then .ok (.ctor .string)
      else if isStr t "boolean" then .ok (.ctor .boolean)
      else if isStr t "date" || isStr t "dateTime" then .ok (.ctor .date)
      else if isStr t "array" then
        (propertyMap fuel (property.get "items")).map fun x => .arr [x] []
      else .error (.unrecognizedType t)

/-- A JavaScript `\w` word character: `[A-Za-z0-9_]`. -/
def isWordChar (c : Char) : Bool := c.isAlphanum || c = '_'

/-- Drop `pat` from the front of `cs`, or `none` if `cs` does not start
with `pat`. -/
def dropPrefixCL : List Char → List Char → Option (List Char)
  | [], cs => some cs
  | _ :: _, [] => none
  | p :: ps, c :: cs => if c = p then dropPrefixCL ps cs else none

/-- The match of a reference string against the source's pointer pattern
`^#\/definitions\/(\w*)$` (source line 195), returning the captured target
definition name on success. -/
def matchDefRef (s : String) : Option String :=
  match dropPrefixCL "#/definitions/".toList s.toList with
  | some rest => if rest.all isWordChar then some (String.mk rest) else none
  | none => none

/-- Remove the first occurrence of `pat` from a character list (JavaScript
`str.replace(pat, '')` with a string pattern replaces only the first
occurrence). -/
def replaceFirstCL (pat : List Char) : List Char → List Char
  | [] => []
  | c :: cs =>
    match dropPrefixCL pat (c :: cs) with
    | some rest => rest
    | none => c :: replaceFirstCL pat cs

/-- `ref.replace('#/definitions/', '')` (source lines 168 and 173). -/
def stripDefPointer (s : String) : String :=
  String.mk (replaceFirstCL "#/definitions/".toList s.toList)

/-- `fillRequired` (source lines 95-101): if the `required` template is an
array containing `key`, set `object[key].required = true`; if the template
is a boolean, set `object[key].required` to it.  Setting a property of a
missing `object[key]` is the JavaScript `TypeError`. -/
def fillRequired (object : List (String × Val)) (key : String)
    (template : Val) : Except MErr (List (String × Val)) :=
  match template with
  | .arr items _ =>
    if items.any fun x => Val.beq x (.str key) then
      match getF object key with
      | .null => .error .typeError
      | v => .ok (setF object key (v.set "required" (.bool true)))
    else .ok object
  | .bool b =>
    match getF object key with
    | .null => .error .typeError
    | v => .ok (setF object key (v.set "required" (.bool b)))
  | _ => .ok object

/-- `isPropertyHasRef` (source line 91):
`property.$ref || (property.type === 'array' && property.items.$ref)`;
reading `.$ref` of missing `items` is the JavaScript `TypeError`. -/
def isPropertyHasRef (property : Val) : Except MErr Bool :=
  if truthy (property.get "$ref") then .ok true
  else if isStr (property.get "type") "array" then
    match property.get "items" with
    | .null => .error .typeError
    | items => .ok (truthy (items.get "$ref"))
  else .ok false

/-- The version-dependent extension-metadata key (source lines 21-22,
129-135): `x-swagger-mongoose` for swagger >= 2, `_mongoose` before. -/
def mongoosePropName (isV2 : Bool) : String :=
  if isV2 then "x-swagger-mongoose" else "_mongoose"

/-- The compile-time context read by the schema-construction recursion: the
module-level `definitions` registry, the detected-version switch
`isAtLeastSwagger2()`, and the loaded validator registry (as the module
path it was loaded from). -/
structure Session where
  defs : Val
  isV2 : Bool
  validators : Option String

/-- `isMongooseProperty` (source line 137). -/
def isMongooseProperty (S : Session) (property : Val) : Bool :=
  truthy (property.get (mongoosePropName S.isV2))

/-- `isMongooseArray` (source line 141):
`property.items && property.items[getMongooseProperty()]`. -/
def isMongooseArray (S : Session) (property : Val) : Bool :=
  truthy (property.get "items") &&
  truthy ((property.get "items").get (mongoosePropName S.isV2))

/-- Lookup of a named validator in the loaded registry
(`validators[mongooseSpecific.validator]`, source line 176): an opaque
function value when a module is loaded, `undefined` from the initial empty
registry. -/
def validatorLookup (validators : Option String) (name : Val) : Val :=
  match validators, name with
  | some dir, .str n => .fn dir n
  | _, _ => .null

/-- `getMongooseSpecific` (source lines 145-188).  `props` is the caller's
(always empty) partial map, returned as an object when no extension block is
found, exactly as the source returns the `props` argument. -/
def getMongooseSpecific (fuel : Nat) (S : Session)
    (props : List (String × Val)) (property : Val) : Except MErr Val :=
  let mp := mongoosePropName S.isV2
  let ms0 := property.get mp
  let ref0 := if S.isV2 && truthy ms0 then ms0.get "$ref" else property.get "$ref"
  let (ms, ref) :=
    if !truthy ms0 && isMongooseArray S property then
      let ms1 := (property.get "items").get mp
      (ms1, if S.isV2 then ms1.get "$ref" else (property.get "items").get "$ref")
    else (ms0, ref0)
  if !truthy ms then .ok (.obj props)
  else if truthy ref then
    match ref with
    | .str refStr =>
      if !S.isV2 then
        if isStr (ms.get "type") "objectId" then
          let ret := [("type", Val.ctor .objectId)]
          if isFalseLit (ms.get "includeSwaggerRef") then .ok (.obj ret)
          else .ok (.obj (setF ret "ref" (.str (stripDefPointer refStr))))
        else .ok (.obj [])
      else
        .ok (.obj [("type", Val.ctor .objectId),
                   ("ref", .str (stripDefPointer refStr))])
    | _ => .error .typeError
  else if truthy (ms.get "validator") then
    let validator := validatorLookup S.validators (ms.get "validator")
    let ret := extendV (extendV [] property) (.obj [("validate", validator)])
    .ok (.obj (delF ret mp))
  else
    let ret := delF (extendV (extendV [] property) ms) mp
    if isSimpleSchema (.obj ret) then
      (propertyMap fuel (.obj ret)).map fun t => .obj (setF ret "type" t)
    else .ok (.obj ret)

/-- `isPolymorphic` (source line 224): truthiness of `def.allOf`. -/
def isPolymorphic (d : Val) : Bool := truthy (d.get "allOf")

/-- Insertion into the accumulating `mergedReqs` `Set` (source line 236):
keeps insertion order, skips values already present. -/
def addReq (reqs : List Val) (v : Val) : List Val :=
  if reqs.any fun x => Val.beq x v then reqs else reqs ++ [v]

/-- Folding one fragment's `required` into the accumulating set:
`if (x.required) x.required.forEach(req => mergedReqs.add(req))`.  A truthy
non-array `required` has no `forEach` and throws. -/
def foldReqs (reqs : List Val) (r : Val) : Except MErr (List Val) :=
  match r with
  | .arr items _ => .ok (items.foldl addReq reqs)
  | v => if truthy v then .error .typeError else .ok reqs

/-- One step of the `definition.allOf.forEach` loop of `processPolymorphic`
(source lines 237-257): a `$ref` fragment folds the referenced definition's
`properties`/`required`, an inline fragment folds its own. -/
def polyStep (S : Session) (acc : List (String × Val) × List Val)
    (polyDef : Val) : Except MErr (List (String × Val) × List Val) :=
  let (mergedProps, mergedReqs) := acc
  if truthy (polyDef.get "$ref") then
    match polyDef.get "$ref" with
    | .str refString =>
      match matchDefRef refString with
      | some propType =>
        match S.defs.get propType with
        | .null => .error .typeError
        | object => do
          let mergedProps := extendV mergedProps (object.get "properties")
          let mergedReqs ← foldReqs mergedReqs (object.get "required")
          .ok (mergedProps, mergedReqs)
      | none => .error .malformedReference
    | _ => .error .typeError
  else do
    let mergedProps := extendV mergedProps (polyDef.get "properties")
    let mergedReqs ← foldReqs mergedReqs (polyDef.get "required")
    .ok (mergedProps, mergedReqs)

/-- The Polymorphism Merger `processPolymorphic` (source lines 234-261):
folds every `allOf` fragment into one property map (last writer wins) and
one required set (insertion-ordered union), installs either only when
non-empty, and removes `allOf`.  The source rewrites `definition` in place;
the rewritten definition is returned here.  Calling it when `allOf` is not
an array is the `TypeError` of `undefined.forEach`. -/
def processPolymorphic (S : Session) (definition : Val) : Except MErr Val :=
  match definition.get "allOf" with
  | .arr frags _ => do
    let (mergedProps, mergedReqs) ← frags.foldlM (polyStep S) ([], [])
    let d1 := if !mergedProps.isEmpty then definition.set "properties" (.obj mergedProps)
              else definition
    let d2 := if !mergedReqs.isEmpty then d1.set "required" (.arr mergedReqs [])
              else d1
    .ok (d2.del "allOf")
  | _ => .error .typeError

/-- `_.isEmpty` as the source applies it (to an index directive or merged
map): collections are empty when they have no entries, primitives are
always empty. -/
def isEmptyVal : Val → Bool
  | .obj fields => fields.isEmpty
  | .arr items _ => items.isEmpty
  | .str s => s.isEmpty
  | _ => true

/-- The integer part of JavaScript `Number(v)` for the version indicators
the compiler feeds it (`"2.0"`, `"1.0"`, plain numbers, booleans).  `none`
stands for `NaN`.  Dropping a fractional part cannot change the only use,
the comparison `swaggerVersion >= 2`, for the version shapes above. -/
def jsToNumber (v : Val) : Option Int :=
  match v with
  | .num n => some n
  | .bool b => some (if b then 1 else 0)
  | .str s =>
    match (s.toList.splitOn '.').map fun cs =>
        if cs ≠ [] ∧ cs.all Char.isDigit then
          some (cs.foldl (fun n c => n * 10 + (c.toNat - 48)) (0 : Nat))
        else none with
    | [some a] => some ((a : Nat) : Int)
    | [some a, some _] => some ((a : Nat) : Int)
    | _ => none
  | _ => none

/-- `isAtLeastSwagger2` (source line 129): `swaggerVersion >= 2`, false for
the initial `null` and for `NaN`. -/
def isAtLeastSwagger2 (v : Option Int) : Bool :=
  match v with
  | some n => 2 ≤ n
  | none => false

/-- `convertToJSON` (source lines 63-81): an in-memory object passes
through; raw text goes to the external JSON decoder (not modelled); every
other input is the `Unknown or invalid spec object` throw. -/
def convertToJSON : Val → Except MErr Val
  | .obj fields => .ok (.obj fields)
  | .arr items extra => .ok (.arr items extra)
  | .null => .ok .null
  | .str _ => .error .externalDecode
  | _ => .error .invalidInput

mutual

/-- `getSchema` (source lines 263-284): reads the `required` facet *before*
running the Polymorphism Merger (so a top-level `allOf` definition is
compiled against its pre-merge `required`), merges a polymorphic
definition in place, then folds `getSchemaProperty` over the property map
(`fullObject.properties` when present, otherwise `fullObject` itself),
`_.extend`ing each returned fragment into the accumulated `props`.
`objectName` is a `Val` because one internal caller passes no name
(`undefined`). -/
def getSchema (fuel : Nat) (S : Session) (objectName : Val) (fullObject : Val) :
    Except MErr (List (String × Val)) :=
  match fuel with
  | 0 => .error .fuelOut
  | fuel + 1 =>
    let required := jsOr (fullObject.get "required") (.arr [] [])
    (if isPolymorphic fullObject then processPolymorphic S fullObject
     else pure fullObject) >>= fun fullObject =>
      let object := if truthy (fullObject.get "properties")
                    then fullObject.get "properties" else fullObject
      match object with
      | .obj fields =>
        fields.foldlM
          (fun props kv =>
            getSchemaProperty fuel S kv.2 kv.1 required objectName object >>=
              fun schemaProperty =>
                match schemaProperty with
                | some fragment => pure (extendFields props fragment)
                | none => pure props)
          []
      | _ => pure []

/-- `getSchemaProperty` (source lines 286-323): returns `none` for the bare
`return` (JavaScript `undefined`) on a reserved field name; otherwise runs
the per-property decision chain (`getSchemaPropertyCore`), re-applies the
`required` facet (the empty-array default of `getSchema` is truthy, so the
re-application is unconditional on that path), and attaches a declared
`default` value to the bound field (a `TypeError` when no field was
bound). -/
def getSchemaProperty (fuel : Nat) (S : Session) (property : Val)
    (key : String) (required : Val) (objectName : Val) (object : Val) :
    Except MErr (Option (List (String × Val))) :=
  match fuel with
  | 0 => .error .fuelOut
  | fuel + 1 => do
    if isMongodbReserved key then pure none
    else do
      let props ← getSchemaPropertyCore fuel S property key required objectName object
      let props ←
        if truthy required then fillRequired props key required
        else pure props
      if !isNullV (property.get "default") then
        match getF props key with
        | .null => .error .typeError
        | v => pure (some (setF props key (v.set "default" (property.get "default"))))
      else pure (some props)

/-- The decision chain of `getSchemaProperty` (source lines 292-313), first
match wins: extension-metadata property; extension-metadata array item;
reference (direct or array items); polymorphic composition (merged in
place, no field emitted); missing or `object` kind (recurse into an
embedded sub-definition); concrete scalar/array kind (Type Mapper, with an
`enum` facet when declared as an array).  The two remaining arms of the
source's chain (`property.type === 'object'` after `property.type !==
'object'` failed, and the `isSimpleSchema(object)` coercion of the whole
sibling map) are unreachable but embedded as written. -/
def getSchemaPropertyCore (fuel : Nat) (S : Session) (property : Val)
    (key : String) (required : Val) (objectName : Val) (object : Val) :
    Except MErr (List (String × Val)) :=
  match fuel with
  | 0 => .error .fuelOut
  | fuel + 1 =>
  if isNullV property then .error .typeError
  else if isMongooseProperty S property then do
    let v ← getMongooseSpecific fuel S [] property
    pure [(key, v)]
  else if isMongooseArray S property then do
    let v ← getMongooseSpecific fuel S [] property
    pure [(key, Val.arr [v] [])]
  else do
    let hasRef ← isPropertyHasRef property
    if hasRef then
      processRef fuel S property objectName [] key required
    else if isPolymorphic property then do
      let _ ← processPolymorphic S property
      pure []
    else if !truthy (property.get "type") ||
            isStr (property.get "type") "object" then do
      let sub ← getSchema fuel S (.str key) property
      pure [(key, Val.obj sub)]
    else if !isStr (property.get "type") "object" then do
      let t ← propertyMap fuel property
      if truthy (property.get "enum") &&
         isArrV (property.get "enum") then
        pure [(key, Val.obj [("type", t), ("enum", property.get "enum")])]
      else
        pure [(key, Val.obj [("type", t)])]
    else if isStr (property.get "type") "object" then do
      let sub ← getSchema fuel S (.str key) property
      pure [(key, Val.obj sub)]
    else if isSimpleSchema object then do
      let t ← propertyMap fuel object
      pure [("type", t)]
    else pure []

/-- The Reference Resolver `processRef` (source lines 194-222): extracts the
target name from the pointer, embeds the (possibly array-wrapped) compiled
target for a non-circular reference — recursively for a structural
(`array`/`object`-typed) target, via a metadata-stripped clone for a simple
one — and emits the `{type: ObjectId, ref: target}` descriptor without any
recursion for a self-reference.  A pointer that misses the pattern fails
with `malformedReference`; an unregistered target is the `TypeError` of
reading `.type` of `undefined`. -/
def processRef (fuel : Nat) (S : Session) (property : Val) (objectName : Val)
    (props : List (String × Val)) (key : String) (required : Val) :
    Except MErr (List (String × Val)) :=
  match fuel with
  | 0 => .error .fuelOut
  | fuel + 1 => do
    let refString := if truthy (property.get "$ref") then property.get "$ref"
                     else (property.get "items").get "$ref"
    match refString with
    | .str refStr =>
      match matchDefRef refStr with
      | none => .error .malformedReference
      | some propType =>
        if !isStr objectName propType then do
          match S.defs.get propType with
          | .null => .error .typeError
          | object => do
            if isStr (object.get "type") "array" ||
               isStr (object.get "type") "object" then do
              let schema ← getSchema fuel S (.str propType)
                (if truthy (object.get "properties")
                 then object.get "properties" else object)
              let v := if truthy (property.get "items") ||
                          isStr (object.get "type") "array"
                       then Val.arr [.obj schema] [] else Val.obj schema
              fillRequired (setF props key v) key required
            else do
              let clone := delF (extendV [] object) (mongoosePropName S.isV2)
              let sub ← getSchemaProperty fuel S (.obj clone) key .null .null .null
              let schemaProp ←
                match sub with
                | some l => pure (getF l key)
                | none => .error .typeError
              let v := if truthy (property.get "items")
                       then Val.arr [schemaProp] [] else schemaProp
              fillRequired (setF props key v) key required
        else if propType ≠ "" then
          fillRequired
            (setF props key (.obj [("type", Val.ctor .objectId),
                                   ("ref", Val.str propType)]))
            key required
        else fillRequired props key required
    | _ => .error .typeError

end

/-- The module-level mutable state of `src/lib/index.js`: the `definitions`
registry and `swaggerVersion` (lines 19-20), the four registries of the
`xSwaggerMongoose` record (lines 23-28), and the `validators` registry
(line 29, kept as the path of the loaded module).  Nothing in the source
ever resets `xSwaggerMongoose` or `validators`; `compile` only overwrites
`definitions` and (conditionally) `swaggerVersion`. -/
structure ModuleState where
  definitions : Val
  swaggerVersion : Option Int
  schemaOptions : List (String × Val)
  additionalProperties : List (String × Val)
  excludeSchema : List (String × Val)
  documentIndex : List (String × Val)
  validators : Option String

/-- The state of a freshly loaded module (source lines 19-29). -/
def freshModuleState : ModuleState :=
  ⟨.null, none, [], [], [], [], none⟩

/-- The `Session` visible to the schema-construction recursion at a given
module state. -/
def sessionOf (st : ModuleState) : Session :=
  ⟨st.definitions, isAtLeastSwagger2 st.swaggerVersion, st.validators⟩

/-- `applyExtraDefinitions` (source lines 103-127): a truthy
`extraDefinitions` first broadcasts its reserved `default` entry (when
truthy) onto every definition's extension-metadata block and deletes it,
then installs every remaining entry verbatim as `defs[key][mongooseProperty]`
(a key with no matching definition is the `TypeError` of writing a property
of `undefined`).  The source mutates `defs` in place; the updated registry
is returned. -/
def applyExtraDefinitions (isV2 : Bool) (defs : Val) (extra : Val) :
    Except MErr Val :=
  if !truthy extra then .ok defs
  else
    match extra with
    | .obj efields =>
      let mp := mongoosePropName isV2
      let defaultDefs := getF efields "default"
      let (defs, efields) :=
        if !truthy defaultDefs then (defs, efields)
        else
          (match defs with
           | .obj dfields =>
             Val.obj (dfields.map fun kv => (kv.1, kv.2.set mp defaultDefs))
           | other => other,
           delF efields "default")
      efields.foldlM
        (fun defs kv =>
          match defs.get kv.1 with
          | .null => .error .typeError
          | dv => .ok (defs.set kv.1 (dv.set mp kv.2)))
        defs
    | _ => .ok defs

/-- `processMongooseDefinition` (source lines 342-365): copies the
recognized facets of a truthy extension-metadata block into the
module-level registries under `key`; a `validators` facet (re)loads the
validator registry from the named path. -/
def processMongooseDefinition (st : ModuleState) (key : String)
    (customOptions : Val) : ModuleState :=
  if !truthy customOptions then st
  else
    let so := setF st.schemaOptions key (customOptions.get "schema-options")
    let st := if truthy (customOptions.get "schema-options") then
        { st with schemaOptions := so } else st
    let ex := setF st.excludeSchema key (customOptions.get "exclude-schema")
    let st := if truthy (customOptions.get "exclude-schema") then
        { st with excludeSchema := ex } else st
    let ap := setF st.additionalProperties key
        (customOptions.get "additional-properties")
    let st := if truthy (customOptions.get "additional-properties") then
        { st with additionalProperties := ap } else st
    let di := setF st.documentIndex key (customOptions.get "index")
    let st := if truthy (customOptions.get "index") then
        { st with documentIndex := di } else st
    let vpath := match customOptions.get "validators" with
      | .str s => s
      | _ => ""
    if truthy (customOptions.get "validators") then
      { st with validators := some vpath }
    else st

/-- `processAdditionalProperties` (source lines 367-379): compiles each
synthetic extra field by wrapping it in a forced extension-metadata block
and running `getSchemaProperty` on the wrapper; reading `.required` of a
missing property value is the JavaScript `TypeError`. -/
def processAdditionalProperties (fuel : Nat) (S : Session)
    (additionalProperties : List (String × Val)) (objectName : Val) :
    Except MErr (List (String × Val)) :=
  let mp := mongoosePropName S.isV2
  additionalProperties.foldlM
    (fun props kv => do
      if isNullV kv.2 then .error .typeError
      else do
        let modifiedProperty := Val.obj [(mp, kv.2)]
        let sp ← getSchemaProperty fuel S modifiedProperty kv.1
          (kv.2.get "required") objectName .null
        match sp with
        | some fragment => pure (extendFields props fragment)
        | none => pure props)
    []

/-- An emitted schema: the opaque handle returned by the external
`new mongoose.Schema(object, options)` collaborator, carrying the compiled
property map, the resolved options, and the index directives registered on
it by `processDocumentIndex` (each as the directive minus its consumed
`unique` flag, paired with that flag). -/
structure MSchema where
  props : List (String × Val)
  options : List (String × Val)
  indexes : List (Val × Bool)

/-- The `{schemas, models}` result of `compile`.  A model is the external
registration of a schema under its definition name, so the `models` map
repeats the `schemas` map. -/
structure CompileResult where
  schemas : List (String × MSchema)
  models : List (String × MSchema)

/-- One iteration of the `_.forEach(definitions, ...)` loop of `compile`
(source lines 402-437), threading the module state: register the
definition's own extension-metadata block, skip if the exclusion registry
names this definition, compile the property map, resolve options
(global-default block extended by the per-definition block), re-check the
global/per-definition exclusion, merge in compiled additional properties,
build the schema, and register the index directive (whose `unique` flag the
source consumes destructively, mutating the stored directive). -/
def compileDefStep (fuel : Nat) (mp : String)
    (acc : ModuleState × List (String × MSchema)) (kv : String × Val) :
    Except MErr (ModuleState × List (String × MSchema)) := do
  let (st, schemas) := acc
  let (key, definition) := kv
  let st := if truthy (definition.get mp)
            then processMongooseDefinition st key (definition.get mp) else st
  if truthy (getF st.excludeSchema key) then pure (st, schemas)
  else do
    let object ← getSchema fuel (sessionOf st) (.str key) definition
    let options := extendV (extendV [] (getF st.schemaOptions mp))
                           (getF st.schemaOptions key)
    let excluded := jsOr (getF st.excludeSchema mp) (getF st.excludeSchema key)
    if truthy excluded then pure (st, schemas)
    else do
      let addl := extendV (extendV [] (getF st.additionalProperties mp))
                          (getF st.additionalProperties key)
      let addlProps ← processAdditionalProperties fuel (sessionOf st)
                        addl (.str key)
      let object := extendFields object addlProps
      let index := getF st.documentIndex key
      let (indexes, st) :=
        if isEmptyVal index then ([], st)
        else
          let isUnique := truthy (index.get "unique")
          let index := index.del "unique"
          ([(index, isUnique)],
           { st with documentIndex := setF st.documentIndex key index })
      pure (st, schemas ++ [(key, ⟨object, options, indexes⟩)])

/-- The public entry point `compile(spec, extraDefinitions)` (source lines
381-448), with the module-level state threaded explicitly: a falsy spec
fails with `invalidInput`; the decoded document's `swagger` field (when
truthy) overwrites the detected version; `definitions` is overwritten with
the document's registry and merged with `extraDefinitions`; a document-level
extension-metadata block is registered; each definition is compiled in
registration order; finally every accumulated schema is registered as a
model under its key. -/
def compile (fuel : Nat) (st : ModuleState) (spec : Val) (extra : Val) :
    Except MErr (ModuleState × CompileResult) :=
  if !truthy spec then .error .invalidInput
  else
    convertToJSON spec >>= fun swaggerJSON =>
      let st := if truthy (swaggerJSON.get "swagger")
                then { st with swaggerVersion := jsToNumber (swaggerJSON.get "swagger") }
                else st
      let st := { st with definitions := swaggerJSON.get "definitions" }
      applyExtraDefinitions (isAtLeastSwagger2 st.swaggerVersion)
          st.definitions extra >>= fun defs =>
        let st := { st with definitions := defs }
        let mp := mongoosePropName (isAtLeastSwagger2 st.swaggerVersion)
        let st := if truthy (swaggerJSON.get mp)
                  then processMongooseDefinition st mp (swaggerJSON.get mp)
                  else st
        (match st.definitions with
         | .obj dfields => dfields.foldlM (compileDefStep fuel mp) (st, [])
         | _ => pure (st, [])) >>= fun p =>
          pure (p.1, ⟨p.2, p.2⟩)

/-- C1: the Type Mapper is deterministic and total over the supported kinds
(it is embedded as a pure Lean function, so determinism and absence of side
effects are intrinsic): the four numeric kinds — directly or as formats of
kind `number` — map to the numeric storage type; `string`/`password` to the
string type; `boolean` to the boolean type; `date`/`dateTime` to the date
type; `array` wraps the mapped item type as an array; kind `number` with
any other format fails with `UnrecognizedFormat`, and every other kind
fails with `UnrecognizedType`. -/
theorem c1_type_mapper_total_deterministic :
    (∀ (fuel : Nat) (p : Val) (s : String),
      s ∈ ["integer", "long", "float", "double"] →
      p.get "type" = .str s →
      propertyMap (fuel + 1) p = .ok (.ctor .number)) ∧
    (∀ (fuel : Nat) (p : Val) (s : String),
      s ∈ ["integer", "long", "float", "double"] →
      p.get "type" = .str "number" →
      p.get "format" = .str s →
      propertyMap (fuel + 1) p = .ok (.ctor .number)) ∧
    (∀ (fuel : Nat) (p : Val) (s : String),
      s ∈ ["string", "password"] →
      p.get "type" = .str s →
      propertyMap (fuel + 1) p = .ok (.ctor .string)) ∧
    (∀ (fuel : Nat) (p : Val),
      p.get "type" = .str "boolean" →
      propertyMap (fuel + 1) p = .ok (.ctor .boolean)) ∧
    (∀ (fuel : Nat) (p : Val) (s : String),
      s ∈ ["date", "dateTime"] →
      p.get "type" = .str s →
      propertyMap (fuel + 1) p = .ok (.ctor .date)) ∧
    (∀ (fuel : Nat) (p : Val),
      p.get "type" = .str "array" →
      propertyMap (fuel + 1) p =
        (propertyMap fuel (p.get "items")).map fun x => .arr [x] []) ∧
    (∀ (fuel : Nat) (p : Val) (f : Val),
      p.get "type" = .str "number" →
      p.get "format" = f →
      (∀ s, f = .str s → s ∉ ["integer", "long", "float", "double"]) →
      propertyMap (fuel + 1) p = .error (.unrecognizedFormat f)) ∧
    (∀ (fuel : Nat) (p : Val) (t : Val),
      isNullV p = false →
      p.get "type" = t →
      (∀ s, t = .str s → s ∉ allowedTypes) →
      propertyMap (fuel + 1) p = .error (.unrecognizedType t)) := by
  refine ⟨?_, ?_, ?_, ?_, ?_, ?_, ?_, ?_⟩
  · intro fuel p s hs h
    have hp : isNullV p = false := by cases p <;> simp_all [Val.get, isNullV]
    simp only [List.mem_cons, List.mem_singleton, List.not_mem_nil, or_false] at hs
    rcases hs with rfl | rfl | rfl | rfl <;> simp [propertyMap, h, isStr, hp]
  · intro fuel p s hs ht hf
    have hp : isNullV p = false := by cases p <;> simp_all [Val.get, isNullV]
    simp only [List.mem_cons, List.mem_singleton, List.not_mem_nil, or_false] at hs
    rcases hs with rfl | rfl | rfl | rfl <;> simp [propertyMap, ht, hf, isStr, hp]
  · intro fuel p s hs h
    have hp : isNullV p = false := by cases p <;> simp_all [Val.get, isNullV]
    simp only [List.mem_cons, List.mem_singleton, List.not_mem_nil, or_false] at hs
    rcases hs with rfl | rfl <;> simp [propertyMap, h, isStr, hp]
  · intro fuel p h
    have hp : isNullV p = false := by cases p <;> simp_all [Val.get, isNullV]
    simp [propertyMap, h, isStr, hp]
  · intro fuel p s hs h
    have hp : isNullV p = false := by cases p <;> simp_all [Val.get, isNullV]
    simp only [List.mem_cons, List.mem_singleton, List.not_mem_nil, or_false] at hs
    rcases hs with rfl | rfl <;> simp [propertyMap, h, isStr, hp]
  · intro fuel p h
    have hp : isNullV p = false := by cases p <;> simp_all [Val.get, isNullV]
    simp [propertyMap, h, isStr, hp]
  · intro fuel p f ht hf hna
    have hp : isNullV p = false := by cases p <;> simp_all [Val.get, isNullV]
    have hs : ∀ x, x ∈ ["integer", "long", "float", "double"] → isStr f x = false := by
      intro x hmem
      cases f <;> simp [isStr]
      intro heq
      exact hna _ (by rw [heq]) hmem
    simp [propertyMap, ht, hf, hp,
      hs "integer" (by simp), hs "long" (by simp),
      hs "float" (by simp), hs "double" (by simp),
      show isStr (.str "number") "number" = true from rfl]
  · intro fuel p t hp ht hna
    have hs : ∀ s, s ∈ allowedTypes → isStr t s = false := by
      intro s hmem
      cases t <;> simp [isStr]
      intro heq
      exact hna _ (by rw [heq]) hmem
    simp [propertyMap, ht, hp,
      hs "number" (by simp [allowedTypes]), hs "integer" (by simp [allowedTypes]),
      hs "long" (by simp [allowedTypes]), hs "float" (by simp [allowedTypes]),
      hs "double" (by simp [allowedTypes]), hs "string" (by simp [allowedTypes]),
      hs "password" (by simp [allowedTypes]), hs "boolean" (by simp [allowedTypes]),
      hs "date" (by simp [allowedTypes]), hs "dateTime" (by simp [allowedTypes]),
      hs "array" (by simp [allowedTypes])]

/-- Witness for C1: the Type Mapper evaluated on concrete descriptors of
each shape the theorem quantifies over. -/
theorem c1_type_mapper_witness :
    propertyMap 1 (.obj [("type", .str "double")]) = .ok (.ctor .number) ∧
    propertyMap 1 (.obj [("type", .str "number"), ("format", .str "float")]) =
      .ok (.ctor .number) ∧
    propertyMap 1 (.obj [("type", .str "password")]) = .ok (.ctor .string) ∧
    propertyMap 1 (.obj [("type", .str "boolean")]) = .ok (.ctor .boolean) ∧
    propertyMap 1 (.obj [("type", .str "dateTime")]) = .ok (.ctor .date) ∧
    propertyMap 2 (.obj [("type", .str "array"),
        ("items", .obj [("type", .str "string")])]) =
      .ok (.arr [.ctor .string] []) ∧
    propertyMap 1 (.obj [("type", .str "number"), ("format", .str "int32")]) =
      .error (.unrecognizedFormat (.str "int32")) ∧
    propertyMap 1 (.obj [("type", .str "object")]) =
      .error (.unrecognizedType (.str "object")) := by
  obtain ⟨h1, h2, h3, h4, h5, h6, h7, h8⟩ := c1_type_mapper_total_deterministic
  refine ⟨h1 0 _ "double" (by simp) rfl,
          h2 0 _ "float" (by simp) rfl rfl,
          h3 0 _ "password" (by simp) rfl,
          h4 0 _ rfl,
          h5 0 _ "dateTime" (by simp) rfl,
          ?_,
          h7 0 _ (.str "int32") rfl rfl (by intro s hs; cases hs; simp),
          h8 0 _ (.str "object") rfl rfl (by intro s hs; cases hs; simp [allowedTypes])⟩
  rw [h6 1 (.obj [("type", .str "array"),
        ("items", .obj [("type", .str "string")])]) rfl]
  rfl

/-- C2: a property whose reference target (direct `$ref` or array-items
`$ref`) names the owning definition itself compiles without recursing into
that definition: for *every* fuel value (the self-reference branch consumes
no recursion budget, which is the termination mechanism) `processRef`
succeeds and binds the field to the lightweight foreign-key descriptor
carrying the `ObjectId` storage type and the target definition's name,
rather than an embedded sub-schema.  Definition names are non-empty (a
hypothetical definition named `\"\"` would hit the source's falsy-string
branch instead). -/
theorem c2_self_reference_emits_foreign_key :
    ∀ (fuel : Nat) (S : Session) (property : Val) (name : String)
      (key : String) (required : Val) (s : String),
      name ≠ "" →
      (if truthy (property.get "$ref") then property.get "$ref"
       else (property.get "items").get "$ref") = .str s →
      matchDefRef s = some name →
      ∃ props,
        processRef (fuel + 1) S property (.str name) [] key required = .ok props ∧
        (getF props key).get "type" = .ctor .objectId ∧
        (getF props key).get "ref" = .str name := by
  intro fuel S property name key required s hne hr hm
  rw [processRef, hr]
  cases required <;>
    simp [hm, isStr, hne, fillRequired, getF, setF, Val.get, Val.set] <;>
    first
      | exact ⟨_, rfl, by simp [getF, Val.get, setF], by simp [getF, Val.get, setF]⟩
      | (split <;>
          exact ⟨_, rfl, by simp [getF, Val.get, setF], by simp [getF, Val.get, setF]⟩)

/-- Witness for C2: a `Node` definition whose `parent` property references
`Node` itself, resolved with the minimum fuel. -/
theorem c2_self_reference_witness :
    ∃ props,
      processRef 1 ⟨.obj [], true, none⟩
          (.obj [("$ref", .str "#/definitions/Node")]) (.str "Node") []
          "parent" (.arr [] []) = .ok props ∧
      (getF props "parent").get "type" = .ctor .objectId ∧
      (getF props "parent").get "ref" = .str "Node" :=
  c2_self_reference_emits_foreign_key 0 ⟨.obj [], true, none⟩
    (.obj [("$ref", .str "#/definitions/Node")]) "Node" "parent"
    (.arr [] []) "#/definitions/Node" (by decide) rfl rfl

/-- C8: a reference string that does not match the path-style pointer
pattern `#/definitions/<name>` makes `processRef` fail, synchronously at
the match site, with the `MalformedReference` error kind, whatever the rest
of the property, the owning definition, or the session. -/
theorem c8_malformed_reference_fails :
    ∀ (fuel : Nat) (S : Session) (property : Val) (objectName : Val)
      (props : List (String × Val)) (key : String) (required : Val) (s : String),
      (if truthy (property.get "$ref") then property.get "$ref"
       else (property.get "items").get "$ref") = .str s →
      matchDefRef s = none →
      processRef (fuel + 1) S property objectName props key required =
        .error .malformedReference := by
  intro fuel S property objectName props key required s hr hm
  rw [processRef, hr]
  simp [hm]

/-- Witness for C8: a pointer whose target segment contains a hyphen (not a
`\w` word character) fails the pattern and raises `MalformedReference`. -/
theorem c8_malformed_reference_witness :
    processRef 1 ⟨.obj [], true, none⟩
        (.obj [("$ref", .str "#/definitions/Foo-Bar")]) (.str "A") []
        "x" (.arr [] []) = .error .malformedReference :=
  c8_malformed_reference_fails 0 ⟨.obj [], true, none⟩
    (.obj [("$ref", .str "#/definitions/Foo-Bar")]) (.str "A") [] "x"
    (.arr [] []) "#/definitions/Foo-Bar" rfl rfl

/-- The `House` definition of the end-to-end scenario:
`{description: string, lng: double, lat: double, required: [lng, lat]}`. -/
def houseDef : Val := .obj [
  ("required", .arr [.str "lng", .str "lat"] []),
  ("properties", .obj [
    ("description", .obj [("type", .str "string")]),
    ("lng", .obj [("type", .str "double")]),
    ("lat", .obj [("type", .str "double")])])]

/-- The `Person` definition of the end-to-end scenario:
`{login: string, houses: array of references to House, required: [login]}`. -/
def personDef : Val := .obj [
  ("required", .arr [.str "login"] []),
  ("properties", .obj [
    ("login", .obj [("type", .str "string")]),
    ("houses", .obj [("type", .str "array"),
      ("items", .obj [("$ref", .str "#/definitions/House")])])])]

/-- The registry holding exactly the two scenario definitions, in a
version-2 session with no validators loaded. -/
def personSession : Session :=
  ⟨.obj [("House", houseDef), ("Person", personDef)], true, none⟩

/-- C5: compiling `Person` against the `House`/`Person` registry maps
`houses` to an array containing the fully compiled `House` property map —
`lng` and `lat` bound to the numeric storage type with `required: true`,
`description` bound to the string storage type with no `required` facet —
and maps `login` to the string storage type with `required: true`. -/
theorem c5_person_house_end_to_end :
    getSchema 10 personSession (.str "Person") personDef = .ok [
      ("login", .obj [("type", .ctor .string), ("required", .bool true)]),
      ("houses", .arr [.obj [
        ("description", .obj [("type", .ctor .string)]),
        ("lng", .obj [("type", .ctor .number), ("required", .bool true)]),
        ("lat", .obj [("type", .ctor .number), ("required", .bool true)])]] [])] := by
  rfl

theorem truthy_null : truthy .null = false := rfl

theorem truthy_obj (f : List (String × Val)) : truthy (.obj f) = true := rfl

/-- `processMongooseDefinition` only updates the extension-metadata and
validator registries; the `definitions` registry is untouched. -/
theorem processMongooseDefinition_definitions (st : ModuleState) (k : String)
    (v : Val) : (processMongooseDefinition st k v).definitions = st.definitions := by
  simp [processMongooseDefinition, apply_ite ModuleState.definitions]

/-- A key absent from an association list reads as `undefined`. -/
theorem getF_eq_null_of_not_mem :
    ∀ (l : List (String × Val)) (k : String),
      k ∉ l.map Prod.fst → getF l k = .null := by
  intro l k h
  induction l with
  | nil => rfl
  | cons kv rest ih =>
    simp only [List.map_cons, List.mem_cons] at h
    push_neg at h
    simp [getF, Ne.symm h.1, ih h.2]

/-- C10: a document that decodes to an object with no `definitions` entry
compiles, with no `extraDefinitions` argument, without raising: the
per-definition loop iterates over nothing and the result is empty
`schemas` and `models` maps — from any prior module state and any fuel. -/
theorem c10_no_definitions_compiles_empty :
    ∀ (fuel : Nat) (st : ModuleState) (fields : List (String × Val)),
      "definitions" ∉ fields.map Prod.fst →
      ∃ st', compile fuel st (.obj fields) .null = .ok (st', ⟨[], []⟩) := by
  intro fuel st fields h
  have hd : getF fields "definitions" = .null := getF_eq_null_of_not_mem _ _ h
  simp only [compile, truthy_obj, truthy_null, Val.get, hd, convertToJSON,
    applyExtraDefinitions, Bool.not_true, Bool.not_false, if_true, if_false,
    Except.bind, bind, pure, Except.pure, apply_ite ModuleState.definitions,
    processMongooseDefinition_definitions, ite_self]
  exact ⟨_, rfl⟩

/-- Witness for C10: a document carrying only a version indicator. -/
theorem c10_no_definitions_witness :
    ∃ st', compile 5 freshModuleState (.obj [("swagger", .str "2.0")]) .null =
      .ok (st', ⟨[], []⟩) :=
  c10_no_definitions_compiles_empty 5 freshModuleState
    [("swagger", .str "2.0")] (by simp)

/-- First document of the state-leak demonstration: a single definition `A`
whose extension-metadata block excludes it from schema emission. -/
def leakDoc1 : Val := .obj [
  ("swagger", .str "2.0"),
  ("definitions", .obj [
    ("A", .obj [
      ("x-swagger-mongoose", .obj [("exclude-schema", .bool true)]),
      ("properties", .obj [("a", .obj [("type", .str "string")])])])])]

/-- Second document of the state-leak demonstration: the same definition
`A` with no extension metadata at all. -/
def leakDoc2 : Val := .obj [
  ("swagger", .str "2.0"),
  ("definitions", .obj [
    ("A", .obj [("properties", .obj [("a", .obj [("type", .str "string")])])])])]

/-- The schema keys produced by compiling `leakDoc2` in the module state
left behind by a compilation of `leakDoc1`. -/
def leakSecondRun : Except MErr (List String) := do
  let (st1, _) ← compile 10 freshModuleState leakDoc1 .null
  let (_, r2) ← compile 10 st1 leakDoc2 .null
  pure (r2.schemas.map Prod.fst)

/-- The schema keys produced by compiling `leakDoc2` from a fresh module
state. -/
def leakFreshRun : Except MErr (List String) := do
  let (_, r3) ← compile 10 freshModuleState leakDoc2 .null
  pure (r3.schemas.map Prod.fst)

/-- C9 (refuting the claim as stated): the extension-metadata registries of
`xSwaggerMongoose` are module-level and never rebuilt by `compile`, so
session state leaks between runs.  Compiling `leakDoc2` after `leakDoc1`
in the same process emits no schema for `A` (the exclusion recorded by the
first run persists), while compiling `leakDoc2` alone emits `A`: the two
runs of the same input differ. -/
theorem c9_session_state_leaks_between_runs :
    leakSecondRun = .ok [] ∧ leakFreshRun = .ok ["A"] ∧
    leakSecondRun ≠ leakFreshRun := by
  refine ⟨rfl, rfl, ?_⟩
  intro h
  rw [show leakSecondRun = .ok [] from rfl,
      show leakFreshRun = .ok ["A"] from rfl] at h
  simp at h

theorem getF_setF_same : ∀ (l : List (String × Val)) (k : String) (v : Val),
    getF (setF l k v) k = v := by
  intro l k v
  induction l with
  | nil => simp [setF, getF]
  | cons kv rest ih =>
    by_cases h : kv.1 = k <;> simp [setF, getF, h, ih]

theorem getF_setF_other : ∀ (l : List (String × Val)) (k k' : String) (v : Val),
    k' ≠ k → getF (setF l k v) k' = getF l k' := by
  intro l k k' v h
  induction l with
  | nil => simp [setF, getF, Ne.symm h]
  | cons kv rest ih =>
    by_cases h1 : kv.1 = k
    · subst h1
      simp [setF, getF, Ne.symm h]
    · by_cases h2 : kv.1 = k' <;> simp [setF, getF, h, h1, h2, ih]

theorem getF_delF_self : ∀ (l : List (String × Val)) (k : String),
    getF (delF l k) k = .null := by
  intro l k
  induction l with
  | nil => rfl
  | cons kv rest ih =>
    by_cases h : kv.1 = k <;> simp [delF, getF, h, ih]

theorem getF_delF_other : ∀ (l : List (String × Val)) (k k' : String),
    k' ≠ k → getF (delF l k) k' = getF l k' := by
  intro l k k' h
  induction l with
  | nil => rfl
  | cons kv rest ih =>
    by_cases h1 : kv.1 = k
    · subst h1
      simp [delF, getF, Ne.symm h, ih]
    · by_cases h2 : kv.1 = k' <;> simp [delF, getF, h, h1, h2, ih]

theorem mem_keys_setF_self : ∀ (l : List (String × Val)) (k : String) (v : Val),
    k ∈ (setF l k v).map Prod.fst := by
  intro l k v
  induction l with
  | nil => simp [setF]
  | cons kv rest ih =>
    by_cases h : kv.1 = k <;> simp [setF, h, ih]

theorem mem_keys_setF_of_mem :
    ∀ (l : List (String × Val)) (k k' : String) (v : Val),
      k' ∈ l.map Prod.fst → k' ∈ (setF l k v).map Prod.fst := by
  intro l k k' v h
  induction l with
  | nil => simp at h
  | cons kv rest ih =>
    simp only [List.map_cons, List.mem_cons] at h
    by_cases h1 : kv.1 = k
    · subst h1
      rcases h with h | h <;> simp [setF, h]
    · rcases h with h | h
      · simp [setF, h1, h]
      · simp only [setF, h1, if_false, List.map_cons, List.mem_cons]
        exact Or.inr (ih h)

theorem getF_extendFields :
    ∀ (b a : List (String × Val)) (k : String), (b.map Prod.fst).Nodup →
      getF (extendFields a b) k =
        if k ∈ b.map Prod.fst then getF b k else getF a k := by
  intro b
  induction b with
  | nil => intro a k _; simp [extendFields]
  | cons kv rest ih =>
    intro a k hnd
    obtain ⟨k0, v0⟩ := kv
    simp only [List.map_cons, List.nodup_cons] at hnd
    rw [show extendFields a ((k0, v0) :: rest) = extendFields (setF a k0 v0) rest from rfl,
        ih _ k hnd.2]
    by_cases hk : k ∈ rest.map Prod.fst
    · have hne : k0 ≠ k := fun he => hnd.1 (he ▸ hk)
      simp [hk, getF, Ne.symm hne, hne]
    · by_cases hk0 : k = k0
      · subst hk0
        simp [hk, getF, getF_setF_same]
      · simp [hk, getF, hk0, Ne.symm hk0, getF_setF_other _ _ _ _ (by exact hk0)]

theorem mem_keys_extendFields_left :
    ∀ (b a : List (String × Val)) (k : String),
      k ∈ a.map Prod.fst → k ∈ (extendFields a b).map Prod.fst := by
  intro b
  induction b with
  | nil => intro a k h; simpa [extendFields] using h
  | cons kv rest ih =>
    intro a k h
    exact ih _ _ (mem_keys_setF_of_mem _ _ _ _ h)

theorem mem_keys_extendFields_right :
    ∀ (b a : List (String × Val)) (k : String),
      k ∈ b.map Prod.fst → k ∈ (extendFields a b).map Prod.fst := by
  intro b
  induction b with
  | nil => intro a k h; simp at h
  | cons kv rest ih =>
    intro a k h
    obtain ⟨k0, v0⟩ := kv
    simp only [List.map_cons, List.mem_cons] at h
    rcases h with h | h
    · subst h
      exact mem_keys_extendFields_left rest (setF a k v0) k (mem_keys_setF_self a k v0)
    · exact ih _ _ h

theorem Val.beq_str_iff (x : Val) (s : String) :
    Val.beq x (.str s) = true ↔ x = .str s := by
  cases x <;> simp [Val.beq]

theorem mem_addReq_str (acc : List Val) (v : Val) (s : String) :
    (.str s) ∈ addReq acc v ↔ (.str s) ∈ acc ∨ v = .str s := by
  unfold addReq
  split
  · rename_i hany
    simp only [List.any_eq_true] at hany
    constructor
    · exact Or.inl
    · rintro (h | rfl)
      · exact h
      · obtain ⟨x, hx, hbeq⟩ := hany
        rw [Val.beq_str_iff] at hbeq
        exact hbeq ▸ hx
  · simp [or_comm, eq_comm]

theorem mem_foldl_addReq :
    ∀ (l acc : List Val) (s : String),
      (.str s) ∈ l.foldl addReq acc ↔ (.str s) ∈ acc ∨ (.str s) ∈ l := by
  intro l
  induction l with
  | nil => simp
  | cons v rest ih =>
    intro acc s
    rw [List.foldl_cons, ih, mem_addReq_str]
    constructor
    · rintro ((h | h) | h)
      · exact Or.inl h
      · exact Or.inr (by simp [h])
      · exact Or.inr (by simp [h])
    · rintro (h | h)
      · exact Or.inl (Or.inl h)
      · simp only [List.mem_cons] at h
        rcases h with h | h
        · exact Or.inl (Or.inr h.symm)
        · exact Or.inr h


theorem addReq_ne_nil (acc : List Val) (v : Val) : addReq acc v ≠ [] := by
  unfold addReq
  split
  · rename_i h
    simp only [List.any_eq_true] at h
    obtain ⟨x, hx, _⟩ := h
    exact List.ne_nil_of_mem hx
  · simp

theorem foldl_addReq_ne_nil (l : List Val) (acc : List Val) (h : acc ≠ []) :
    l.foldl addReq acc ≠ [] := by
  induction l generalizing acc with
  | nil => simpa
  | cons v rest ih => exact ih _ (addReq_ne_nil acc v)


theorem polyStep_inline :
    ∀ (S : Session) (f : Val) (p : List (String × Val)) (r : List Val)
      (mp : List (String × Val)) (mr : List Val),
      truthy (f.get "$ref") = false →
      f.get "properties" = .obj p →
      f.get "required" = .arr r [] →
      polyStep S (mp, mr) f = .ok (extendFields mp p, r.foldl addReq mr) := by
  intro S f p r mp mr h1 h2 h3
  simp [polyStep, h1, h2, h3, foldReqs, extendV, bind, Except.bind, pure,
    Except.pure]

theorem polyStep_ref :
    ∀ (S : Session) (f : Val) (s t : String) (ofields : List (String × Val))
      (p : List (String × Val)) (r : List Val)
      (mp : List (String × Val)) (mr : List Val),
      f.get "$ref" = .str s →
      s ≠ "" →
      matchDefRef s = some t →
      S.defs.get t = .obj ofields →
      getF ofields "properties" = .obj p →
      getF ofields "required" = .arr r [] →
      polyStep S (mp, mr) f = .ok (extendFields mp p, r.foldl addReq mr) := by
  intro S f s t ofields p r mp mr h1 hs h2 h3 h4 h5
  simp only [polyStep]
  rw [h1]
  have htr : truthy (Val.str s) = true := by simp [truthy, hs]
  rw [htr]
  simp only [if_true, h2]
  rw [h3]
  simp [h4, h5, Val.get, foldReqs, extendV, bind, Except.bind, pure,
    Except.pure]

theorem polyStep_empty :
    ∀ (S : Session) (f : Val) (mp : List (String × Val)) (mr : List Val),
      truthy (f.get "$ref") = false →
      f.get "properties" = .null →
      f.get "required" = .null →
      polyStep S (mp, mr) f = .ok (mp, mr) := by
  intro S f mp mr h1 h2 h3
  simp [polyStep, h1, h2, h3, foldReqs, extendV, truthy_null, bind,
    Except.bind, pure, Except.pure]

theorem processPolymorphic_empty_fragments :
    ∀ (S : Session) (dfields : List (String × Val)) (f1 f2 : Val),
      getF dfields "allOf" = .arr [f1, f2] [] →
      truthy (f1.get "$ref") = false → truthy (f2.get "$ref") = false →
      f1.get "properties" = .null → f2.get "properties" = .null →
      f1.get "required" = .null → f2.get "required" = .null →
      processPolymorphic S (.obj dfields) = .ok (.obj (delF dfields "allOf")) := by
  intro S dfields f1 f2 hall h1 h2 hp1 hp2 hq1 hq2
  simp only [processPolymorphic, Val.get, hall, List.foldlM]
  rw [polyStep_empty S f1 [] [] h1 hp1 hq1]
  simp only [bind, Except.bind]
  rw [polyStep_empty S f2 [] [] h2 hp2 hq2]
  simp [Val.del, pure, Except.pure]

theorem getSchema_polymorphic_congr :
    ∀ (fuel : Nat) (S : Session) (n : Val) (d1 d2 : Val),
      isPolymorphic d1 = true → isPolymorphic d2 = true →
      jsOr (d1.get "required") (.arr [] []) = jsOr (d2.get "required") (.arr [] []) →
      processPolymorphic S d1 = processPolymorphic S d2 →
      getSchema (fuel + 1) S n d1 = getSchema (fuel + 1) S n d2 := by
  intro fuel S n d1 d2 h1 h2 h3 h4
  simp only [getSchema, h1, h2, if_true]
  rw [h3, h4]

/-- `processPolymorphic` on a definition composed of two fragments, each
contributing a property map `p_i` and a required list `r_i` (the
contribution shape is stated abstractly over the accumulator and discharged
by `polyStep_inline` / `polyStep_ref` below): the installed property map is
last-writer-wins, the installed required sequence is the insertion-ordered
union, either is installed only when non-empty, and the `allOf` facet is
removed. -/
theorem processPolymorphic_two_fragments :
    ∀ (S : Session) (dfields : List (String × Val)) (f1 f2 : Val)
      (p1 p2 : List (String × Val)) (r1 r2 : List Val),
      getF dfields "allOf" = .arr [f1, f2] [] →
      (∀ mp mr, polyStep S (mp, mr) f1 =
        .ok (extendFields mp p1, r1.foldl addReq mr)) →
      (∀ mp mr, polyStep S (mp, mr) f2 =
        .ok (extendFields mp p2, r2.foldl addReq mr)) →
      (p1.map Prod.fst).Nodup →
      (p2.map Prod.fst).Nodup →
      ∃ d', processPolymorphic S (.obj dfields) = .ok d' ∧
        d'.get "allOf" = .null ∧
        (∀ k, k ∈ p2.map Prod.fst → (d'.get "properties").get k = getF p2 k) ∧
        (∀ k, k ∉ p2.map Prod.fst → k ∈ p1.map Prod.fst →
          (d'.get "properties").get k = getF p1 k) ∧
        ((r1 ≠ [] ∨ r2 ≠ []) → ∃ reqs, d'.get "required" = .arr reqs [] ∧
          ∀ s : String, .str s ∈ reqs ↔ .str s ∈ r1 ∨ .str s ∈ r2) := by
  intro S dfields f1 f2 p1 p2 r1 r2 hall hstep1 hstep2 hnd1 hnd2
  set M := extendFields (extendFields [] p1) p2 with hMdef
  set R := r2.foldl addReq (r1.foldl addReq []) with hRdef
  have hrun : processPolymorphic S (.obj dfields) =
      .ok (.obj (delF
        (if !R.isEmpty then
          setF (if !M.isEmpty then setF dfields "properties" (.obj M) else dfields)
            "required" (.arr R [])
         else (if !M.isEmpty then setF dfields "properties" (.obj M) else dfields))
        "allOf")) := by
    simp only [processPolymorphic, Val.get, hall, List.foldlM]
    rw [hstep1 [] []]
    simp only [bind, Except.bind]
    rw [hstep2 (extendFields [] p1) (List.foldl addReq [] r1)]
    rw [show extendFields (extendFields [] p1) p2 = M from rfl]
    rw [show List.foldl addReq (List.foldl addReq [] r1) r2 = R from rfl]
    by_cases hMe : M.isEmpty <;> by_cases hRe : R.isEmpty <;>
      simp [hMe, hRe, Val.set, Val.del, pure, Except.pure]
  refine ⟨_, hrun, ?_, ?_, ?_, ?_⟩
  · simp [Val.get, getF_delF_self]
  · intro k hk
    have hmem := mem_keys_extendFields_right p2 (extendFields [] p1) k hk
    have hMne : M.isEmpty = false := by
      cases h : M.isEmpty
      · rfl
      · rw [List.isEmpty_iff] at h
        rw [hMdef] at h
        rw [h] at hmem
        simp at hmem
    have hgoal : getF M k = getF p2 k := by
      rw [hMdef, getF_extendFields _ _ _ hnd2, if_pos hk]
    by_cases hRe : R.isEmpty <;>
      simp [hRe, hMne, Val.get,
        getF_delF_other _ _ _ (by decide : ("properties" : String) ≠ "allOf"),
        getF_setF_other _ _ _ _ (by decide : ("properties" : String) ≠ "required"),
        getF_setF_same, hgoal]
  · intro k hk2 hk1
    have hmem := mem_keys_extendFields_left p2 (extendFields [] p1) k
      (mem_keys_extendFields_right p1 [] k hk1)
    have hMne : M.isEmpty = false := by
      cases h : M.isEmpty
      · rfl
      · rw [List.isEmpty_iff] at h
        rw [hMdef] at h
        rw [h] at hmem
        simp at hmem
    have hgoal : getF M k = getF p1 k := by
      rw [hMdef, getF_extendFields _ _ _ hnd2, if_neg hk2,
          getF_extendFields _ _ _ hnd1, if_pos hk1]
    by_cases hRe : R.isEmpty <;>
      simp [hRe, hMne, Val.get,
        getF_delF_other _ _ _ (by decide : ("properties" : String) ≠ "allOf"),
        getF_setF_other _ _ _ _ (by decide : ("properties" : String) ≠ "required"),
        getF_setF_same, hgoal]
  · intro hne
    have hRne : R.isEmpty = false := by
      cases h : R.isEmpty
      · rfl
      · rw [List.isEmpty_iff] at h
        exfalso
        rcases hne with h1 | h2
        · cases r1 with
          | nil => exact h1 rfl
          | cons a t =>
            exact foldl_addReq_ne_nil r2 _
              (foldl_addReq_ne_nil t _ (addReq_ne_nil [] a)) h
        · cases r2 with
          | nil => exact h2 rfl
          | cons b t =>
            exact foldl_addReq_ne_nil t _ (addReq_ne_nil _ b) h
    refine ⟨R, ?_, ?_⟩
    · simp [hRne, Val.get,
        getF_delF_other _ _ _ (by decide : ("required" : String) ≠ "allOf"),
        getF_setF_same]
    · intro s
      rw [hRdef, mem_foldl_addReq, mem_foldl_addReq]
      simp


/-- Folding the whole `allOf` fragment list when each fragment `f_i`
contributes an abstract property map `p_i` and required list `r_i` to the
accumulator: the fold accumulates `_.extend` left to right over the `p_i`
and the insertion-ordered required union over the `r_i`. -/
theorem polyFold_semantics :
    ∀ (S : Session) (frags : List Val)
      (contribs : List (List (String × Val) × List Val)),
      List.Forall₂ (fun f pr => ∀ mp mr, polyStep S (mp, mr) f =
        .ok (extendFields mp pr.1, pr.2.foldl addReq mr)) frags contribs →
      ∀ (mp : List (String × Val)) (mr : List Val),
      frags.foldlM (polyStep S) (mp, mr) =
        .ok (contribs.foldl (fun a pr => extendFields a pr.1) mp,
             contribs.foldl (fun a pr => pr.2.foldl addReq a) mr) := by
  intro S frags contribs hF
  induction hF with
  | nil => intro mp mr; simp [List.foldlM, pure, Except.pure]
  | cons hstep htail ih =>
    intro mp mr
    rw [List.foldlM_cons, hstep mp mr]
    simp only [bind, Except.bind, List.foldl_cons]
    exact ih _ _

theorem getF_foldl_extendFields_not_mem :
    ∀ (ps : List (List (String × Val) × List Val))
      (a : List (String × Val)) (k : String),
      (∀ pr ∈ ps, (pr.1.map Prod.fst).Nodup) →
      (∀ pr ∈ ps, k ∉ pr.1.map Prod.fst) →
      getF (ps.foldl (fun a pr => extendFields a pr.1) a) k = getF a k := by
  intro ps
  induction ps with
  | nil => intro a k _ _; rfl
  | cons pr rest ih =>
    intro a k hnd hnm
    rw [List.foldl_cons,
      ih _ k (fun q hq => hnd q (List.mem_cons_of_mem _ hq))
        (fun q hq => hnm q (List.mem_cons_of_mem _ hq)),
      getF_extendFields _ _ _ (hnd pr (List.mem_cons_self _ _)),
      if_neg (hnm pr (List.mem_cons_self _ _))]

/-- Last writer wins across the whole fragment sequence: a key declared by
fragment `pr` and by no later fragment resolves to `pr`'s binding. -/
theorem getF_foldl_extendFields_last :
    ∀ (post pre : List (List (String × Val) × List Val))
      (pr : List (String × Val) × List Val)
      (a : List (String × Val)) (k : String),
      (pr.1.map Prod.fst).Nodup →
      (∀ q ∈ post, (q.1.map Prod.fst).Nodup) →
      k ∈ pr.1.map Prod.fst →
      (∀ q ∈ post, k ∉ q.1.map Prod.fst) →
      getF ((pre ++ pr :: post).foldl (fun a q => extendFields a q.1) a) k =
        getF pr.1 k := by
  intro post pre pr a k hnd hndp hk hnm
  rw [List.foldl_append, List.foldl_cons,
    getF_foldl_extendFields_not_mem post _ k hndp hnm,
    getF_extendFields _ _ _ hnd, if_pos hk]

theorem mem_keys_foldl_extendFields :
    ∀ (ps : List (List (String × Val) × List Val))
      (a : List (String × Val)) (k : String),
      k ∈ a.map Prod.fst ∨ (∃ pr ∈ ps, k ∈ pr.1.map Prod.fst) →
      k ∈ (ps.foldl (fun a pr => extendFields a pr.1) a).map Prod.fst := by
  intro ps
  induction ps with
  | nil =>
    intro a k h
    rcases h with h | ⟨pr, hpr, _⟩
    · exact h
    · simp at hpr
  | cons q rest ih =>
    intro a k h
    rw [List.foldl_cons]
    apply ih
    rcases h with h | ⟨pr, hpr, hk⟩
    · exact Or.inl (mem_keys_extendFields_left _ _ _ h)
    · rcases List.mem_cons.mp hpr with heq | hpr2
      · exact Or.inl (mem_keys_extendFields_right _ _ _ (heq ▸ hk))
      · exact Or.inr ⟨pr, hpr2, hk⟩

theorem foldl_extendFields_all_nil :
    ∀ (ps : List (List (String × Val) × List Val)) (a : List (String × Val)),
      (∀ pr ∈ ps, pr.1 = ([] : List (String × Val))) →
      ps.foldl (fun a pr => extendFields a pr.1) a = a := by
  intro ps
  induction ps with
  | nil => intro a _; rfl
  | cons q rest ih =>
    intro a h
    rw [List.foldl_cons, h q (List.mem_cons_self _ _)]
    exact ih a (fun pr hpr => h pr (List.mem_cons_of_mem _ hpr))

theorem foldl_reqs_all_nil :
    ∀ (ps : List (List (String × Val) × List Val)) (mr : List Val),
      (∀ pr ∈ ps, pr.2 = ([] : List Val)) →
      ps.foldl (fun a pr => pr.2.foldl addReq a) mr = mr := by
  intro ps
  induction ps with
  | nil => intro mr _; rfl
  | cons q rest ih =>
    intro mr h
    rw [List.foldl_cons, h q (List.mem_cons_self _ _)]
    exact ih mr (fun pr hpr => h pr (List.mem_cons_of_mem _ hpr))

/-- The accumulated required set is the insertion-ordered union of every
fragment's required entries. -/
theorem mem_foldl_reqs :
    ∀ (ps : List (List (String × Val) × List Val)) (mr : List Val) (s : String),
      (.str s) ∈ ps.foldl (fun a pr => pr.2.foldl addReq a) mr ↔
        (.str s) ∈ mr ∨ ∃ pr ∈ ps, (.str s) ∈ pr.2 := by
  intro ps
  induction ps with
  | nil => intro mr s; simp
  | cons q rest ih =>
    intro mr s
    rw [List.foldl_cons, ih, mem_foldl_addReq]
    constructor
    · rintro ((h | h) | ⟨pr, hpr, h⟩)
      · exact Or.inl h
      · exact Or.inr ⟨q, List.mem_cons_self _ _, h⟩
      · exact Or.inr ⟨pr, List.mem_cons_of_mem _ hpr, h⟩
    · rintro (h | ⟨pr, hpr, h⟩)
      · exact Or.inl (Or.inl h)
      · rcases List.mem_cons.mp hpr with heq | hpr2
        · exact Or.inl (Or.inr (heq ▸ h))
        · exact Or.inr ⟨pr, hpr2, h⟩

theorem foldl_reqs_ne_nil :
    ∀ (ps : List (List (String × Val) × List Val)) (mr : List Val),
      mr ≠ [] ∨ (∃ pr ∈ ps, pr.2 ≠ ([] : List Val)) →
      ps.foldl (fun a pr => pr.2.foldl addReq a) mr ≠ [] := by
  intro ps
  induction ps with
  | nil =>
    intro mr h
    rcases h with h | ⟨pr, hpr, _⟩
    · exact h
    · simp at hpr
  | cons q rest ih =>
    intro mr h
    rw [List.foldl_cons]
    apply ih
    rcases h with h | ⟨pr, hpr, hne⟩
    · exact Or.inl (foldl_addReq_ne_nil _ _ h)
    · rcases List.mem_cons.mp hpr with heq | hpr2
      · left
        cases hq : pr.2 with
        | nil => exact absurd hq hne
        | cons v t =>
          rw [← heq, hq]
          exact foldl_addReq_ne_nil t _ (addReq_ne_nil _ v)
      · exact Or.inr ⟨pr, hpr2, hne⟩

/-- Fragments contributing nothing leave the accumulator untouched. -/
theorem polyFold_inert :
    ∀ (S : Session) (frags : List Val),
      (∀ f ∈ frags, truthy (f.get "$ref") = false ∧
        f.get "properties" = .null ∧ f.get "required" = .null) →
      ∀ (mp : List (String × Val)) (mr : List Val),
        frags.foldlM (polyStep S) (mp, mr) = .ok (mp, mr) := by
  intro S frags
  induction frags with
  | nil => intro _ mp mr; simp [List.foldlM, pure, Except.pure]
  | cons f rest ih =>
    intro h mp mr
    obtain ⟨h1, h2, h3⟩ := h f (List.mem_cons_self _ _)
    rw [List.foldlM_cons, polyStep_empty S f mp mr h1 h2 h3]
    simp only [bind, Except.bind]
    exact ih (fun g hg => h g (List.mem_cons_of_mem _ hg)) mp mr

/-- An `allOf` sequence of any length whose fragments all contribute
nothing only removes the `allOf` facet; neither `properties` nor
`required` is installed (the non-emptiness guard). -/
theorem processPolymorphic_inert_fragments :
    ∀ (S : Session) (dfields : List (String × Val)) (frags : List Val),
      getF dfields "allOf" = .arr frags [] →
      (∀ f ∈ frags, truthy (f.get "$ref") = false ∧
        f.get "properties" = .null ∧ f.get "required" = .null) →
      processPolymorphic S (.obj dfields) = .ok (.obj (delF dfields "allOf")) := by
  intro S dfields frags hall hin
  simp only [processPolymorphic, Val.get, hall]
  rw [polyFold_inert S frags hin [] []]
  simp [Val.del, pure, Except.pure, bind, Except.bind]

/-- `processPolymorphic` over an `allOf` sequence of arbitrary length, each
fragment contributing an abstract property map `pr.1` and required list
`pr.2` (the contribution shape is discharged by `polyStep_inline` /
`polyStep_ref`): the installed property map is last-writer-wins in sequence
order, the installed required sequence is the insertion-ordered union of
all fragments' entries, either is installed only when the accumulated
map/set is non-empty, and the `allOf` facet is removed. -/
theorem processPolymorphic_merge :
    ∀ (S : Session) (dfields : List (String × Val)) (frags : List Val)
      (contribs : List (List (String × Val) × List Val)),
      getF dfields "allOf" = .arr frags [] →
      List.Forall₂ (fun f pr => ∀ mp mr, polyStep S (mp, mr) f =
        .ok (extendFields mp pr.1, pr.2.foldl addReq mr)) frags contribs →
      (∀ pr ∈ contribs, (pr.1.map Prod.fst).Nodup) →
      ∃ d', processPolymorphic S (.obj dfields) = .ok d' ∧
        d'.get "allOf" = .null ∧
        (∀ pre pr post, contribs = pre ++ pr :: post →
          ∀ k, k ∈ pr.1.map Prod.fst →
          (∀ q ∈ post, k ∉ q.1.map Prod.fst) →
          (d'.get "properties").get k = getF pr.1 k) ∧
        ((∀ pr ∈ contribs, pr.1 = ([] : List (String × Val))) →
          d'.get "properties" = getF dfields "properties") ∧
        ((∀ pr ∈ contribs, pr.2 = ([] : List Val)) →
          d'.get "required" = getF dfields "required") ∧
        ((∃ pr ∈ contribs, pr.2 ≠ ([] : List Val)) →
          ∃ reqs, d'.get "required" = .arr reqs [] ∧
            ∀ s : String, .str s ∈ reqs ↔ ∃ pr ∈ contribs, .str s ∈ pr.2) := by
  intro S dfields frags contribs hall hF hnd
  set M := contribs.foldl (fun a pr => extendFields a pr.1) [] with hMdef
  set R := contribs.foldl (fun a pr => pr.2.foldl addReq a) [] with hRdef
  have hrun : processPolymorphic S (.obj dfields) =
      .ok (.obj (delF
        (if !R.isEmpty then
          setF (if !M.isEmpty then setF dfields "properties" (.obj M) else dfields)
            "required" (.arr R [])
         else (if !M.isEmpty then setF dfields "properties" (.obj M) else dfields))
        "allOf")) := by
    simp only [processPolymorphic, Val.get, hall]
    rw [polyFold_semantics S frags contribs hF [] []]
    rw [show contribs.foldl (fun a pr => extendFields a pr.1) [] = M from rfl]
    rw [show contribs.foldl (fun a pr => pr.2.foldl addReq a) [] = R from rfl]
    by_cases hMe : M.isEmpty <;> by_cases hRe : R.isEmpty <;>
      simp [hMe, hRe, Val.set, Val.del, pure, Except.pure, bind, Except.bind]
  refine ⟨_, hrun, ?_, ?_, ?_, ?_, ?_⟩
  · simp [Val.get, getF_delF_self]
  · intro pre pr post hco k hk hnm
    have hprmem : pr ∈ contribs := by
      rw [hco]; exact List.mem_append_right _ (List.mem_cons_self _ _)
    have hgoal : getF M k = getF pr.1 k := by
      rw [hMdef, hco]
      exact getF_foldl_extendFields_last post pre pr [] k (hnd pr hprmem)
        (fun q hq => hnd q (by
          rw [hco]; exact List.mem_append_right _ (List.mem_cons_of_mem _ hq)))
        hk hnm
    have hkM : k ∈ M.map Prod.fst := by
      rw [hMdef]
      exact mem_keys_foldl_extendFields contribs [] k (Or.inr ⟨pr, hprmem, hk⟩)
    have hMne : M.isEmpty = false := by
      cases h : M.isEmpty
      · rfl
      · rw [List.isEmpty_iff] at h
        rw [h] at hkM
        simp at hkM
    by_cases hRe : R.isEmpty <;>
      simp [hRe, hMne, Val.get,
        getF_delF_other _ _ _ (by decide : ("properties" : String) ≠ "allOf"),
        getF_setF_other _ _ _ _ (by decide : ("properties" : String) ≠ "required"),
        getF_setF_same, hgoal]
  · intro hall1
    have hM : M = [] := by
      rw [hMdef]
      exact foldl_extendFields_all_nil contribs [] hall1
    have hMe : M.isEmpty = true := by rw [hM]; rfl
    by_cases hRe : R.isEmpty <;>
      simp [hMe, hRe, Val.get,
        getF_delF_other _ _ _ (by decide : ("properties" : String) ≠ "allOf"),
        getF_setF_other _ _ _ _ (by decide : ("properties" : String) ≠ "required")]
  · intro hall2
    have hR : R = [] := by
      rw [hRdef]
      exact foldl_reqs_all_nil contribs [] hall2
    have hRe : R.isEmpty = true := by rw [hR]; rfl
    by_cases hMe : M.isEmpty <;>
      simp [hMe, hRe, Val.get,
        getF_delF_other _ _ _ (by decide : ("required" : String) ≠ "allOf"),
        getF_setF_other _ _ _ _ (by decide : ("required" : String) ≠ "properties")]
  · intro hex
    have hRne : R ≠ [] := by
      rw [hRdef]
      exact foldl_reqs_ne_nil contribs [] (Or.inr hex)
    have hRe : R.isEmpty = false := by
      cases h : R.isEmpty
      · rfl
      · exact absurd (List.isEmpty_iff.mp h) hRne
    refine ⟨R, ?_, ?_⟩
    · simp [hRe, Val.get,
        getF_delF_other _ _ _ (by decide : ("required" : String) ≠ "allOf"),
        getF_setF_same]
    · intro s
      rw [hRdef, mem_foldl_reqs]
      simp

/-- A polymorphic definition composed of two inline fragments with the
overlapping field `y`: the first declares `x: string, y: string` and
requires `x`; the second declares `y: integer, z: boolean` and requires
`x` and `z`. -/
def polyDefn : Val := .obj [
  ("allOf", .arr [
    .obj [("properties", .obj [
            ("x", .obj [("type", .str "string")]),
            ("y", .obj [("type", .str "string")])]),
          ("required", .arr [.str "x"] [])],
    .obj [("properties", .obj [
            ("y", .obj [("type", .str "integer")]),
            ("z", .obj [("type", .str "boolean")])]),
          ("required", .arr [.str "x", .str "z"] [])]] [])]

/-- The three inline fragments of the concrete three-fragment scenario:
overlapping keys `y` (fragments 1 and 2) and `z` (fragments 2 and 3). -/
def p31 : List (String × Val) :=
  [("x", .obj [("type", .str "string")]), ("y", .obj [("type", .str "string")])]

def r31 : List Val := [.str "x"]

def p32 : List (String × Val) :=
  [("y", .obj [("type", .str "integer")]), ("z", .obj [("type", .str "boolean")])]

def r32 : List Val := [.str "z"]

def p33 : List (String × Val) :=
  [("z", .obj [("type", .str "string")]), ("w", .obj [("type", .str "long")])]

def r33 : List Val := [.str "w", .str "x"]

def f31 : Val := .obj [("properties", .obj p31), ("required", .arr r31 [])]

def f32 : Val := .obj [("properties", .obj p32), ("required", .arr r32 [])]

def f33 : Val := .obj [("properties", .obj p33), ("required", .arr r33 [])]

/-- A polymorphic definition composed of three inline fragments. -/
def polyFields3 : List (String × Val) := [("allOf", .arr [f31, f32, f33] [])]

def polyDefn3 : Val := .obj polyFields3

/-- The per-fragment contributions of `polyDefn3`. -/
def contribs3 : List (List (String × Val) × List Val) :=
  [(p31, r31), (p32, r32), (p33, r33)]

/-- C4: the `composedOf` (`allOf`) merge of a sequence of two or more
fragments installs, before any property of the definition is compiled, one
property map with last-writer-wins resolution of field names overlapping
between any fragments of the sequence, one required sequence equal to the
(insertion-ordered, de-duplicated) union of all fragments' required
entries, and removes the `allOf` facet; the merged properties
(respectively required) are installed only when the accumulated map
(respectively set) is non-empty.  In order: (1) the merge semantics over a
fragment sequence of any length ≥ 2, each fragment of abstract
contribution: a key bound by a fragment and by no later fragment resolves
to that fragment's binding, the untouched-`properties`/`required` guards
when every fragment contributes nothing to them, and the required union;
(2)-(3) the contribution of an inline fragment and of a `$ref` fragment
resolved through the registry; (4) a whole sequence of inert fragments
only removes `allOf`; (5) compiling a polymorphic definition depends on it
only through the merge result and the pre-merge required facet, so the
merge precedes all property compilation; (6) a concrete two-fragment run:
the overlapping field `y` is bound per the *later* fragment (`integer`,
hence the numeric storage type); (7) a concrete three-fragment run over
`polyDefn3`: `y` resolves to fragment 2, `z` to fragment 3, `x`/`w` to
their only declaring fragments. -/
theorem c4_polymorphic_merge :
    (∀ (S : Session) (dfields : List (String × Val)) (frags : List Val)
      (contribs : List (List (String × Val) × List Val)),
      2 ≤ frags.length →
      getF dfields "allOf" = .arr frags [] →
      List.Forall₂ (fun f pr => ∀ mp mr, polyStep S (mp, mr) f =
        .ok (extendFields mp pr.1, pr.2.foldl addReq mr)) frags contribs →
      (∀ pr ∈ contribs, (pr.1.map Prod.fst).Nodup) →
      ∃ d', processPolymorphic S (.obj dfields) = .ok d' ∧
        d'.get "allOf" = .null ∧
        (∀ pre pr post, contribs = pre ++ pr :: post →
          ∀ k, k ∈ pr.1.map Prod.fst →
          (∀ q ∈ post, k ∉ q.1.map Prod.fst) →
          (d'.get "properties").get k = getF pr.1 k) ∧
        ((∀ pr ∈ contribs, pr.1 = ([] : List (String × Val))) →
          d'.get "properties" = getF dfields "properties") ∧
        ((∀ pr ∈ contribs, pr.2 = ([] : List Val)) →
          d'.get "required" = getF dfields "required") ∧
        ((∃ pr ∈ contribs, pr.2 ≠ ([] : List Val)) →
          ∃ reqs, d'.get "required" = .arr reqs [] ∧
            ∀ s : String, .str s ∈ reqs ↔ ∃ pr ∈ contribs, .str s ∈ pr.2)) ∧
    (∀ (S : Session) (f : Val) (p : List (String × Val)) (r : List Val)
      (mp : List (String × Val)) (mr : List Val),
      truthy (f.get "$ref") = false →
      f.get "properties" = .obj p →
      f.get "required" = .arr r [] →
      polyStep S (mp, mr) f = .ok (extendFields mp p, r.foldl addReq mr)) ∧
    (∀ (S : Session) (f : Val) (s t : String) (ofields : List (String × Val))
      (p : List (String × Val)) (r : List Val)
      (mp : List (String × Val)) (mr : List Val),
      f.get "$ref" = .str s →
      s ≠ "" →
      matchDefRef s = some t →
      S.defs.get t = .obj ofields →
      getF ofields "properties" = .obj p →
      getF ofields "required" = .arr r [] →
      polyStep S (mp, mr) f = .ok (extendFields mp p, r.foldl addReq mr)) ∧
    (∀ (S : Session) (dfields : List (String × Val)) (frags : List Val),
      getF dfields "allOf" = .arr frags [] →
      (∀ f ∈ frags, truthy (f.get "$ref") = false ∧
        f.get "properties" = .null ∧ f.get "required" = .null) →
      processPolymorphic S (.obj dfields) = .ok (.obj (delF dfields "allOf"))) ∧
    (∀ (fuel : Nat) (S : Session) (n : Val) (d1 d2 : Val),
      isPolymorphic d1 = true → isPolymorphic d2 = true →
      jsOr (d1.get "required") (.arr [] []) =
        jsOr (d2.get "required") (.arr [] []) →
      processPolymorphic S d1 = processPolymorphic S d2 →
      getSchema (fuel + 1) S n d1 = getSchema (fuel + 1) S n d2) ∧
    getSchema 5 personSession (.str "P") polyDefn = .ok [
      ("x", .obj [("type", .ctor .string)]),
      ("y", .obj [("type", .ctor .number)]),
      ("z", .obj [("type", .ctor .boolean)])] ∧
    getSchema 5 personSession (.str "P") polyDefn3 = .ok [
      ("x", .obj [("type", .ctor .string)]),
      ("y", .obj [("type", .ctor .number)]),
      ("z", .obj [("type", .ctor .string)]),
      ("w", .obj [("type", .ctor .number)])] :=
  ⟨fun S dfields frags contribs _ => processPolymorphic_merge S dfields frags contribs,
   polyStep_inline, polyStep_ref, processPolymorphic_inert_fragments,
   getSchema_polymorphic_congr, rfl, rfl⟩

/-- Witness for C4: the general merge theorem applied to the concrete
three-fragment sequence of `polyDefn3`, whose contribution hypotheses are
discharged by the inline fragment characterization at each fragment. -/
theorem c4_polymorphic_merge_witness :
    ∃ d', processPolymorphic personSession (.obj polyFields3) = .ok d' ∧
      d'.get "allOf" = .null ∧
      (∀ pre pr post, contribs3 = pre ++ pr :: post →
        ∀ k, k ∈ pr.1.map Prod.fst →
        (∀ q ∈ post, k ∉ q.1.map Prod.fst) →
        (d'.get "properties").get k = getF pr.1 k) ∧
      ((∀ pr ∈ contribs3, pr.1 = ([] : List (String × Val))) →
        d'.get "properties" = getF polyFields3 "properties") ∧
      ((∀ pr ∈ contribs3, pr.2 = ([] : List Val)) →
        d'.get "required" = getF polyFields3 "required") ∧
      ((∃ pr ∈ contribs3, pr.2 ≠ ([] : List Val)) →
        ∃ reqs, d'.get "required" = .arr reqs [] ∧
          ∀ s : String, .str s ∈ reqs ↔ ∃ pr ∈ contribs3, .str s ∈ pr.2) :=
  c4_polymorphic_merge.1 personSession polyFields3 [f31, f32, f33] contribs3
    (by decide)
    rfl
    (List.Forall₂.cons
      (fun mp mr => c4_polymorphic_merge.2.1 personSession f31 p31 r31 mp mr
        rfl rfl rfl)
      (List.Forall₂.cons
        (fun mp mr => c4_polymorphic_merge.2.1 personSession f32 p32 r32 mp mr
          rfl rfl rfl)
        (List.Forall₂.cons
          (fun mp mr => c4_polymorphic_merge.2.1 personSession f33 p33 r33 mp mr
            rfl rfl rfl)
          List.Forall₂.nil)))
    (by simp [contribs3, p31, p32, p33])

theorem keys_setF_of_mem :
    ∀ (l : List (String × Val)) (k : String) (v : Val),
      k ∈ l.map Prod.fst → (setF l k v).map Prod.fst = l.map Prod.fst := by
  intro l k v h
  induction l with
  | nil => simp at h
  | cons kv rest ih =>
    simp only [List.map_cons, List.mem_cons] at h
    by_cases h1 : kv.1 = k
    · simp [setF, h1]
    · rcases h with h | h
      · exact absurd h.symm h1
      · simp [setF, h1, ih h]

theorem mem_keys_setF_inv :
    ∀ (l : List (String × Val)) (k k' : String) (v : Val),
      k' ∈ (setF l k v).map Prod.fst → k' ∈ l.map Prod.fst ∨ k' = k := by
  intro l k k' v h
  induction l with
  | nil => simp [setF] at h; exact Or.inr h
  | cons kv rest ih =>
    by_cases h1 : kv.1 = k
    · rw [show setF (kv :: rest) k v = (kv.1, v) :: rest from by simp [setF, h1]] at h
      simp only [List.map_cons, List.mem_cons] at h ⊢
      rcases h with h | h
      · exact Or.inl (Or.inl h)
      · exact Or.inl (Or.inr h)
    · rw [show setF (kv :: rest) k v = kv :: setF rest k v from by simp [setF, h1]] at h
      simp only [List.map_cons, List.mem_cons] at h ⊢
      rcases h with h | h
      · exact Or.inl (Or.inl h)
      · rcases ih h with h | h
        · exact Or.inl (Or.inr h)
        · exact Or.inr h

theorem mem_keys_extendFields_inv :
    ∀ (b a : List (String × Val)) (k : String),
      k ∈ (extendFields a b).map Prod.fst →
      k ∈ a.map Prod.fst ∨ k ∈ b.map Prod.fst := by
  intro b
  induction b with
  | nil => intro a k h; exact Or.inl h
  | cons kv rest ih =>
    intro a k h
    rcases ih _ _ h with h | h
    · rcases mem_keys_setF_inv _ _ _ _ h with h | h
      · exact Or.inl h
      · exact Or.inr (by simp [h])
    · exact Or.inr (by simp [h])

theorem fillRequired_keys :
    ∀ (l : List (String × Val)) (k : String) (t : Val) (l' : List (String × Val)),
      fillRequired l k t = .ok l' → l'.map Prod.fst = l.map Prod.fst := by
  intro l k t l' h
  unfold fillRequired at h
  split at h
  · split at h
    · rename_i hget
      cases hg : getF l k with
      | null => rw [hg] at h; exact absurd h (by simp)
      | _ =>
        rw [hg] at h
        first
        | (simp only [Except.ok.injEq] at h
           rw [← h]
           exact keys_setF_of_mem _ _ _ (by
             by_contra hmem
             exact (by simpa [getF_eq_null_of_not_mem _ _ hmem] using hg.symm)))
    · simp only [Except.ok.injEq] at h; rw [h]
  · cases hg : getF l k with
    | null => rw [hg] at h; exact absurd h (by simp)
    | _ =>
      rw [hg] at h
      simp only [Except.ok.injEq] at h
      rw [← h]
      exact keys_setF_of_mem _ _ _ (by
        by_contra hmem
        exact (by simpa [getF_eq_null_of_not_mem _ _ hmem] using hg.symm))
  · simp only [Except.ok.injEq] at h; rw [h]

theorem except_bind_ok {α β : Type} (x : Except MErr α) (f : α → Except MErr β)
    (b : β) : (x >>= f) = .ok b ↔ ∃ a, x = .ok a ∧ f a = .ok b := by
  cases x <;> simp [bind, Except.bind]

theorem mem_keys_of_getF_ne_null :
    ∀ (l : List (String × Val)) (k : String),
      getF l k ≠ .null → k ∈ l.map Prod.fst := by
  intro l k h
  by_contra hmem
  exact h (getF_eq_null_of_not_mem _ _ hmem)

theorem processRef_keys :
    ∀ (fuel : Nat) (S : Session) (p n : Val) (props : List (String × Val))
      (key : String) (r : Val) (l' : List (String × Val)),
      processRef fuel S p n props key r = .ok l' →
      ∀ x, x ∈ l'.map Prod.fst → x ∈ props.map Prod.fst ∨ x = key := by
  intro fuel S p n props key r l' h x hx
  have hend : ∀ (v : Val), fillRequired (setF props key v) key r = .ok l' →
      x ∈ props.map Prod.fst ∨ x = key := by
    intro v hf
    have hk := fillRequired_keys _ _ _ _ hf
    rw [hk] at hx
    exact mem_keys_setF_inv _ _ _ _ hx
  match fuel with
  | 0 => exact absurd h (by simp [processRef])
  | fuel + 1 =>
    simp only [processRef] at h
    split at h
    case _ refStr =>
      split at h
      · exact absurd h (by simp)
      case _ propType =>
        split at h
        · -- non-circular reference
          split at h
          · exact absurd h (by simp)
          · split at h
            · -- structural (array/object-typed) target: embed recursively
              rw [except_bind_ok] at h
              obtain ⟨schema, _, h⟩ := h
              exact hend _ h
            · -- simple target: compile a metadata-stripped clone
              rw [except_bind_ok] at h
              obtain ⟨sub, _, h⟩ := h
              cases sub with
              | none => exact absurd h (by simp [bind, Except.bind])
              | some lsub =>
                rw [except_bind_ok] at h
                obtain ⟨sp, _, h⟩ := h
                exact hend _ h
        · -- circular self-reference
          split at h
          · exact hend _ h
          · have hk := fillRequired_keys _ _ _ _ h
            rw [hk] at hx
            exact Or.inl hx
    · exact absurd h (by simp)


theorem getSchemaPropertyCore_keys :
    ∀ (fuel : Nat) (S : Session) (p : Val) (key : String) (r n o : Val)
      (l : List (String × Val)),
      getSchemaPropertyCore fuel S p key r n o = .ok l →
      ∀ x, x ∈ l.map Prod.fst → x = key := by
  intro fuel S p key r n o l h x hx
  match fuel with
  | 0 => exact absurd h (by simp [getSchemaPropertyCore])
  | fuel + 1 =>
    unfold getSchemaPropertyCore at h
    split at h
    · exact absurd h (by simp)
    · split at h
      · -- extension-metadata property
        rw [except_bind_ok] at h
        obtain ⟨v, _, h⟩ := h
        simp only [pure, Except.pure, Except.ok.injEq] at h
        rw [← h] at hx
        simpa using hx
      · split at h
        · -- extension-metadata array
          rw [except_bind_ok] at h
          obtain ⟨v, _, h⟩ := h
          simp only [pure, Except.pure, Except.ok.injEq] at h
          rw [← h] at hx
          simpa using hx
        · rw [except_bind_ok] at h
          obtain ⟨hasRef, _, h⟩ := h
          split at h
          · -- reference
            rcases processRef_keys _ _ _ _ _ _ _ _ h x hx with hc | hc
            · simp at hc
            · exact hc
          · split at h
            · -- polymorphic property: nothing bound
              rw [except_bind_ok] at h
              obtain ⟨d, _, h⟩ := h
              simp only [pure, Except.pure, Except.ok.injEq] at h
              rw [← h] at hx
              simp at hx
            · split at h
              · -- missing or object kind: embedded sub-definition
                rw [except_bind_ok] at h
                obtain ⟨sub, _, h⟩ := h
                simp only [pure, Except.pure, Except.ok.injEq] at h
                rw [← h] at hx
                simpa using hx
              · split at h
                · -- scalar / array kind
                  rw [except_bind_ok] at h
                  obtain ⟨t, _, h⟩ := h
                  split at h <;>
                    (simp only [pure, Except.pure, Except.ok.injEq] at h;
                     rw [← h] at hx; simpa using hx)
                · split at h
                  · -- unreachable duplicate object arm
                    rw [except_bind_ok] at h
                    obtain ⟨sub, _, h⟩ := h
                    simp only [pure, Except.pure, Except.ok.injEq] at h
                    rw [← h] at hx
                    simpa using hx
                  · split at h
                    · -- unreachable isSimpleSchema arm: guards contradict
                      rename_i h5 h6 h7 _
                      simp only [Bool.not_eq_true, Bool.or_eq_true,
                        Bool.not_eq_false] at h5 h6 h7
                      exact absurd h6 (by simp [h7])
                    · simp only [pure, Except.pure, Except.ok.injEq] at h
                      rw [← h] at hx
                      simp at hx

theorem getSchemaProperty_not_reserved :
    ∀ (fuel : Nat) (S : Session) (p : Val) (key : String) (r n o : Val)
      (l : List (String × Val)),
      getSchemaProperty fuel S p key r n o = .ok (some l) →
      isMongodbReserved key = false := by
  intro fuel S p key r n o l h
  match fuel with
  | 0 => exact absurd h (by simp [getSchemaProperty])
  | fuel + 1 =>
    cases hres : isMongodbReserved key
    · rfl
    · unfold getSchemaProperty at h
      rw [hres] at h
      exact absurd h (by simp [pure, Except.pure])

theorem getSchemaProperty_keys :
    ∀ (fuel : Nat) (S : Session) (p : Val) (key : String) (r n o : Val)
      (l : List (String × Val)),
      getSchemaProperty fuel S p key r n o = .ok (some l) →
      ∀ x, x ∈ l.map Prod.fst → x = key := by
  intro fuel S p key r n o l h x hx
  match fuel with
  | 0 => exact absurd h (by simp [getSchemaProperty])
  | fuel + 1 =>
    unfold getSchemaProperty at h
    split at h
    · exact absurd h (by simp [pure, Except.pure])
    · rw [except_bind_ok] at h
      obtain ⟨props0, hP1, h⟩ := h
      try simp only [] at h
      have hfin : ∀ (props1 : List (String × Val)),
          (if (!isNullV (p.get "default")) = true then
            match getF props1 key with
            | Val.null => Except.error MErr.typeError
            | v => pure (some (setF props1 key (v.set "default" (p.get "default"))))
          else pure (some props1)) = Except.ok (some l) →
          l.map Prod.fst = props1.map Prod.fst := by
        intro props1 hh
        split at hh
        · cases hg : getF props1 key with
          | null => rw [hg] at hh; exact absurd hh (by simp [pure, Except.pure])
          | _ =>
            rw [hg] at hh
            simp only [pure, Except.pure, Except.ok.injEq, Option.some.injEq] at hh
            rw [← hh]
            exact keys_setF_of_mem _ _ _
              (mem_keys_of_getF_ne_null _ _ (by rw [hg]; intro hc; cases hc))
        · simp only [pure, Except.pure, Except.ok.injEq, Option.some.injEq] at hh
          rw [← hh]
      split at h
      · rw [except_bind_ok] at h
        obtain ⟨props1, hP2, h⟩ := h
        have hl := hfin _ h
        have hp1 := fillRequired_keys _ _ _ _ hP2
        rw [hl, hp1] at hx
        exact getSchemaPropertyCore_keys _ _ _ _ _ _ _ _ hP1 x hx
      · rw [except_bind_ok] at h
        obtain ⟨props1, hP2, h⟩ := h
        have hl := hfin _ h
        simp only [pure, Except.pure, Except.ok.injEq] at hP2
        rw [hl, ← hP2] at hx
        exact getSchemaPropertyCore_keys _ _ _ _ _ _ _ _ hP1 x hx

theorem foldlM_inv {α β : Type} (P : β → Prop) (f : β → α → Except MErr β) :
    ∀ (l : List α) (b0 b' : β),
      (∀ b a b2, a ∈ l → f b a = .ok b2 → P b → P b2) →
      l.foldlM f b0 = .ok b' → P b0 → P b' := by
  intro l
  induction l with
  | nil =>
    intro b0 b' _ h hp
    simp only [List.foldlM_nil, pure, Except.pure, Except.ok.injEq] at h
    rw [← h]
    exact hp
  | cons a t ih =>
    intro b0 b' hstep h hp
    rw [List.foldlM_cons, except_bind_ok] at h
    obtain ⟨b1, h1, h⟩ := h
    exact ih b1 b' (fun b x b2 hx => hstep b x b2 (List.mem_cons_of_mem _ hx))
      h (hstep b0 a b1 (List.mem_cons_self _ _) h1 hp)

theorem getSchema_keys :
    ∀ (fuel : Nat) (S : Session) (n d : Val) (l : List (String × Val)),
      getSchema fuel S n d = .ok l →
      ∀ x, x ∈ l.map Prod.fst → isMongodbReserved x = false := by
  intro fuel S n d l h x hx
  match fuel with
  | 0 => exact absurd h (by simp [getSchema])
  | fuel + 1 =>
    unfold getSchema at h
    try simp only [] at h
    rw [except_bind_ok] at h
    obtain ⟨d', _, h⟩ := h
    split at h
    · refine foldlM_inv
        (fun lres => ∀ y, y ∈ lres.map Prod.fst → isMongodbReserved y = false)
        _ _ _ _ ?_ h (by simp) x hx
      intro b kv b2 _ hstep hb y hy
      rw [except_bind_ok] at hstep
      obtain ⟨sp, hsp, hstep⟩ := hstep
      cases sp with
      | none =>
        simp only [pure, Except.pure, Except.ok.injEq] at hstep
        rw [← hstep] at hy
        exact hb y hy
      | some frag =>
        simp only [pure, Except.pure, Except.ok.injEq] at hstep
        rw [← hstep] at hy
        rcases mem_keys_extendFields_inv _ _ _ hy with hc | hc
        · exact hb y hc
        · rw [getSchemaProperty_keys _ _ _ _ _ _ _ _ hsp y hc]
          exact getSchemaProperty_not_reserved _ _ _ _ _ _ _ _ hsp
    · simp only [pure, Except.pure, Except.ok.injEq] at h
      rw [← h] at hx
      simp at hx

theorem processAdditionalProperties_keys :
    ∀ (fuel : Nat) (S : Session) (ap : List (String × Val)) (n : Val)
      (l : List (String × Val)),
      processAdditionalProperties fuel S ap n = .ok l →
      ∀ x, x ∈ l.map Prod.fst → isMongodbReserved x = false := by
  intro fuel S ap n l h x hx
  unfold processAdditionalProperties at h
  refine foldlM_inv
    (fun lres => ∀ y, y ∈ lres.map Prod.fst → isMongodbReserved y = false)
    _ _ _ _ ?_ h (by simp) x hx
  intro b kv b2 _ hstep hb y hy
  split at hstep
  · exact absurd hstep (by simp)
  · rw [except_bind_ok] at hstep
    obtain ⟨sp, hsp, hstep⟩ := hstep
    cases sp with
    | none =>
      simp only [pure, Except.pure, Except.ok.injEq] at hstep
      rw [← hstep] at hy
      exact hb y hy
    | some frag =>
      simp only [pure, Except.pure, Except.ok.injEq] at hstep
      rw [← hstep] at hy
      rcases mem_keys_extendFields_inv _ _ _ hy with hc | hc
      · exact hb y hc
      · rw [getSchemaProperty_keys _ _ _ _ _ _ _ _ hsp y hc]
        exact getSchemaProperty_not_reserved _ _ _ _ _ _ _ _ hsp

theorem compileDefStep_keys :
    ∀ (fuel : Nat) (mp : String) (acc : ModuleState × List (String × MSchema))
      (kv : String × Val) (acc2 : ModuleState × List (String × MSchema)),
      compileDefStep fuel mp acc kv = .ok acc2 →
      (∀ k sch, (k, sch) ∈ acc.2 → ∀ x, x ∈ sch.props.map Prod.fst →
        isMongodbReserved x = false) →
      (∀ k sch, (k, sch) ∈ acc2.2 → ∀ x, x ∈ sch.props.map Prod.fst →
        isMongodbReserved x = false) := by
  intro fuel mp acc kv acc2 h hinv
  obtain ⟨st, schemas⟩ := acc
  obtain ⟨key, definition⟩ := kv
  unfold compileDefStep at h
  try simp only [] at h
  split at h
  case isTrue =>
        split at h
        · simp only [pure, Except.pure, Except.ok.injEq] at h
          rw [← h]
          exact hinv
        · rw [except_bind_ok] at h
          obtain ⟨object, hobj, h⟩ := h
          try simp only [] at h
          split at h
          · simp only [pure, Except.pure, Except.ok.injEq] at h
            rw [← h]
            exact hinv
          · rw [except_bind_ok] at h
            obtain ⟨addl, haddl, h⟩ := h
            try simp only [] at h
            split at h <;>
              (simp only [pure, Except.pure, Except.ok.injEq] at h
               rw [← h]
               intro k sch hmem x hx
               simp only [List.mem_append, List.mem_singleton] at hmem
               rcases hmem with hmem | hmem
               · exact hinv k sch hmem x hx
               · injection hmem with hk hsch
                 rw [hsch] at hx
                 try simp only [] at hx
                 rcases mem_keys_extendFields_inv _ _ _ hx with hc | hc
                 · exact getSchema_keys _ _ _ _ _ hobj x hc
                 · exact processAdditionalProperties_keys _ _ _ _ _ haddl x hc)
  case isFalse =>
        split at h
        · simp only [pure, Except.pure, Except.ok.injEq] at h
          rw [← h]
          exact hinv
        · rw [except_bind_ok] at h
          obtain ⟨object, hobj, h⟩ := h
          try simp only [] at h
          split at h
          · simp only [pure, Except.pure, Except.ok.injEq] at h
            rw [← h]
            exact hinv
          · rw [except_bind_ok] at h
            obtain ⟨addl, haddl, h⟩ := h
            try simp only [] at h
            split at h <;>
              (simp only [pure, Except.pure, Except.ok.injEq] at h
               rw [← h]
               intro k sch hmem x hx
               simp only [List.mem_append, List.mem_singleton] at hmem
               rcases hmem with hmem | hmem
               · exact hinv k sch hmem x hx
               · injection hmem with hk hsch
                 rw [hsch] at hx
                 try simp only [] at hx
                 rcases mem_keys_extendFields_inv _ _ _ hx with hc | hc
                 · exact getSchema_keys _ _ _ _ _ hobj x hc
                 · exact processAdditionalProperties_keys _ _ _ _ _ haddl x hc)

theorem compile_schemas_keys :
    ∀ (fuel : Nat) (st : ModuleState) (spec extra : Val)
      (st' : ModuleState) (res : CompileResult),
      compile fuel st spec extra = .ok (st', res) →
      (∀ k sch, (k, sch) ∈ res.schemas → ∀ x, x ∈ sch.props.map Prod.fst →
        isMongodbReserved x = false) ∧
      (∀ k sch, (k, sch) ∈ res.models → ∀ x, x ∈ sch.props.map Prod.fst →
        isMongodbReserved x = false) := by
  intro fuel st spec extra st' res h
  unfold compile at h
  split at h
  · exact absurd h (by simp)
  · rw [except_bind_ok] at h
    obtain ⟨doc, _, h⟩ := h
    try simp only [] at h
    rw [except_bind_ok] at h
    obtain ⟨defs, _, h⟩ := h
    try simp only [] at h
    rw [except_bind_ok] at h
    obtain ⟨pair, hfold, h⟩ := h
    obtain ⟨st2, schemas⟩ := pair
    have hs : ∀ k sch, (k, sch) ∈ schemas → ∀ x, x ∈ sch.props.map Prod.fst →
        isMongodbReserved x = false := by
      split at hfold
      · exact foldlM_inv
          (fun acc : ModuleState × List (String × MSchema) =>
            ∀ k sch, (k, sch) ∈ acc.2 → ∀ x, x ∈ sch.props.map Prod.fst →
              isMongodbReserved x = false)
          _ _ _ _ (fun b a b2 _ hstep hb => compileDefStep_keys _ _ _ _ _ hstep hb)
          hfold (by simp)
      · simp only [pure, Except.pure, Except.ok.injEq, Prod.mk.injEq] at hfold
        rw [← hfold.2]
        simp
    simp only [pure, Except.pure, Except.ok.injEq, Prod.mk.injEq] at h
    obtain ⟨hst, hres⟩ := h
    rw [← hres]
    exact ⟨hs, hs⟩

/-- The document of the C3 witness: definition `A` explicitly declares the
reserved field names `_id` and `__v` alongside an ordinary field `a`. -/
def reservedDoc : Val := .obj [
  ("swagger", .str "2.0"),
  ("definitions", .obj [
    ("A", .obj [("properties", .obj [
      ("_id", .obj [("type", .str "string")]),
      ("a", .obj [("type", .str "string")]),
      ("__v", .obj [("type", .str "integer")])])])])]

/-- C3: the reserved storage-engine field names are exactly `_id` and
`__v`; `getSchemaProperty` omits any field so named (returning the bare
`undefined`) whatever the property's content, so — third conjunct — no
compiled property map in any `compile` result (`schemas` or `models`, with
additional-properties extension fields going through the same filter) ever
contains a reserved key, while every field fragment that is emitted binds
exactly the (non-reserved) declared name it was compiled from. -/
theorem c3_reserved_fields_never_emitted :
    (∀ x, isMongodbReserved x = true ↔ x = "_id" ∨ x = "__v") ∧
    (∀ (fuel : Nat) (S : Session) (p : Val) (key : String) (r n o : Val),
      isMongodbReserved key = true →
      getSchemaProperty (fuel + 1) S p key r n o = .ok none) ∧
    (∀ (fuel : Nat) (S : Session) (p : Val) (key : String) (r n o : Val)
      (l : List (String × Val)),
      getSchemaProperty fuel S p key r n o = .ok (some l) →
      isMongodbReserved key = false ∧ ∀ x, x ∈ l.map Prod.fst → x = key) ∧
    (∀ (fuel : Nat) (st : ModuleState) (spec extra : Val)
      (st' : ModuleState) (res : CompileResult),
      compile fuel st spec extra = .ok (st', res) →
      (∀ k sch, (k, sch) ∈ res.schemas → ∀ x, x ∈ sch.props.map Prod.fst →
        isMongodbReserved x = false) ∧
      (∀ k sch, (k, sch) ∈ res.models → ∀ x, x ∈ sch.props.map Prod.fst →
        isMongodbReserved x = false)) := by
  refine ⟨?_, ?_, ?_, compile_schemas_keys⟩
  · intro x
    simp [isMongodbReserved]
  · intro fuel S p key r n o hres
    unfold getSchemaProperty
    rw [hres]
    simp [pure, Except.pure]
  · intro fuel S p key r n o l h
    exact ⟨getSchemaProperty_not_reserved _ _ _ _ _ _ _ _ h,
           getSchemaProperty_keys _ _ _ _ _ _ _ _ h⟩

/-- Witness for C3: `_id` is reserved and concretely omitted by
`getSchemaProperty`; compiling `reservedDoc` — whose definition declares
`_id` and `__v` explicitly — yields a property map containing only the
ordinary field `a`, on which the compile-level conclusion is instantiated. -/
theorem c3_reserved_fields_witness :
    isMongodbReserved "_id" = true ∧
    getSchemaProperty 1 ⟨.obj [], true, none⟩
      (.obj [("type", .str "string")]) "_id" (.arr [] []) .null .null =
      .ok none ∧
    ∀ x, x ∈ ([("a", Val.obj [("type", Val.ctor .string)])].map Prod.fst) →
      isMongodbReserved x = false := by
  refine ⟨rfl, c3_reserved_fields_never_emitted.2.1 0 ⟨.obj [], true, none⟩
    (.obj [("type", .str "string")]) "_id" (.arr [] []) .null .null rfl, ?_⟩
  intro x hx
  exact (c3_reserved_fields_never_emitted.2.2.2 20 freshModuleState reservedDoc
      .null
      ⟨Val.obj [("A", .obj [("properties", .obj [
          ("_id", .obj [("type", .str "string")]),
          ("a", .obj [("type", .str "string")]),
          ("__v", .obj [("type", .str "integer")])])])],
        some 2, [], [], [], [], none⟩
      ⟨[("A", ⟨[("a", Val.obj [("type", Val.ctor .string)])], [], []⟩)],
       [("A", ⟨[("a", Val.obj [("type", Val.ctor .string)])], [], []⟩)]⟩
      rfl).1 "A" ⟨[("a", Val.obj [("type", Val.ctor .string)])], [], []⟩
    (by simp) x hx

theorem truthy_of_truthy_get (v : Val) (k : String) :
    truthy (v.get k) = true → truthy v = true := by
  intro h
  cases v <;> simp_all [Val.get, truthy]

theorem processMongooseDefinition_excludeSchema_set
    (st : ModuleState) (key : String) (v : Val)
    (h : truthy (v.get "exclude-schema") = true) :
    getF (processMongooseDefinition st key v).excludeSchema key =
      v.get "exclude-schema" := by
  have hv : truthy v = true := truthy_of_truthy_get _ _ h
  simp [processMongooseDefinition, hv, h, apply_ite ModuleState.excludeSchema,
    getF_setF_same]

theorem processMongooseDefinition_excludeSchema_mono
    (st : ModuleState) (key : String) (v : Val) (mp : String)
    (h : truthy (getF st.excludeSchema mp) = true) :
    truthy (getF (processMongooseDefinition st key v).excludeSchema mp) = true := by
  by_cases hv : truthy v = true
  · by_cases he : truthy (v.get "exclude-schema") = true
    · by_cases hk : key = mp
      · subst hk
        rw [processMongooseDefinition_excludeSchema_set st key v he]
        exact he
      · simp [processMongooseDefinition, hv, he,
          apply_ite ModuleState.excludeSchema,
          getF_setF_other _ _ _ _ (Ne.symm hk), h]
    · simp [processMongooseDefinition, hv, he,
        apply_ite ModuleState.excludeSchema, h]
  · simp [processMongooseDefinition, hv, h]

theorem compileDefStep_excluded (fuel : Nat) (mp : String) (st : ModuleState)
    (schemas : List (String × MSchema)) (k : String) (d : Val)
    (h : truthy ((d.get mp).get "exclude-schema") = true) :
    compileDefStep fuel mp (st, schemas) (k, d) =
      .ok (processMongooseDefinition st k (d.get mp), schemas) := by
  have hv : truthy (d.get mp) = true := truthy_of_truthy_get _ _ h
  have hset := processMongooseDefinition_excludeSchema_set st k (d.get mp) h
  simp only [compileDefStep, hv, if_true, hset, h, pure, Except.pure]

theorem compileDefStep_schemas_shape (fuel : Nat) (mp : String)
    (acc acc2 : ModuleState × List (String × MSchema)) (kv : String × Val)
    (h : compileDefStep fuel mp acc kv = .ok acc2) :
    acc2.2 = acc.2 ∨ ∃ sch, acc2.2 = acc.2 ++ [(kv.1, sch)] := by
  obtain ⟨st, schemas⟩ := acc
  obtain ⟨key, d⟩ := kv
  unfold compileDefStep at h
  simp only [] at h
  split at h
  case isTrue =>
        split at h
        · simp only [pure, Except.pure, Except.ok.injEq] at h
          rw [← h]
          exact Or.inl rfl
        · rw [except_bind_ok] at h
          obtain ⟨object, _, h⟩ := h
          try simp only [] at h
          split at h
          · simp only [pure, Except.pure, Except.ok.injEq] at h
            rw [← h]
            exact Or.inl rfl
          · rw [except_bind_ok] at h
            obtain ⟨addl, _, h⟩ := h
            try simp only [] at h
            simp only [pure, Except.pure, Except.ok.injEq] at h
            rw [← h]
            exact Or.inr ⟨_, rfl⟩
  case isFalse =>
        split at h
        · simp only [pure, Except.pure, Except.ok.injEq] at h
          rw [← h]
          exact Or.inl rfl
        · rw [except_bind_ok] at h
          obtain ⟨object, _, h⟩ := h
          try simp only [] at h
          split at h
          · simp only [pure, Except.pure, Except.ok.injEq] at h
            rw [← h]
            exact Or.inl rfl
          · rw [except_bind_ok] at h
            obtain ⟨addl, _, h⟩ := h
            try simp only [] at h
            simp only [pure, Except.pure, Except.ok.injEq] at h
            rw [← h]
            exact Or.inr ⟨_, rfl⟩

theorem jsOr_truthy_left (a b : Val) (h : truthy a = true) :
    truthy (jsOr a b) = true := by
  simp [jsOr, h]

theorem compileDefStep_global_excluded (fuel : Nat) (mp : String)
    (acc acc2 : ModuleState × List (String × MSchema)) (kv : String × Val)
    (h : compileDefStep fuel mp acc kv = .ok acc2)
    (hglob : truthy (getF acc.1.excludeSchema mp) = true) :
    truthy (getF acc2.1.excludeSchema mp) = true ∧ acc2.2 = acc.2 := by
  obtain ⟨st, schemas⟩ := acc
  obtain ⟨key, d⟩ := kv
  simp only [] at hglob
  unfold compileDefStep at h
  simp only [] at h
  split at h
  case isTrue =>
    have hglob' : truthy (getF
        (processMongooseDefinition st key (d.get mp)).excludeSchema mp) = true :=
      processMongooseDefinition_excludeSchema_mono st key (d.get mp) mp hglob
    split at h
    · simp only [pure, Except.pure, Except.ok.injEq] at h
      rw [← h]
      exact ⟨hglob', rfl⟩
    · rw [except_bind_ok] at h
      obtain ⟨object, _, h⟩ := h
      try simp only [] at h
      split at h
      · simp only [pure, Except.pure, Except.ok.injEq] at h
        rw [← h]
        exact ⟨hglob', rfl⟩
      · rename_i hexcl
        exact absurd (jsOr_truthy_left _ _ hglob') hexcl
  case isFalse =>
    have hglob' : truthy (getF st.excludeSchema mp) = true := hglob
    split at h
    · simp only [pure, Except.pure, Except.ok.injEq] at h
      rw [← h]
      exact ⟨hglob', rfl⟩
    · rw [except_bind_ok] at h
      obtain ⟨object, _, h⟩ := h
      try simp only [] at h
      split at h
      · simp only [pure, Except.pure, Except.ok.injEq] at h
        rw [← h]
        exact ⟨hglob', rfl⟩
      · rename_i hexcl
        exact absurd (jsOr_truthy_left _ _ hglob') hexcl

theorem fold_keys_sub :
    ∀ (dfields : List (String × Val)) (fuel : Nat) (mp : String)
      (acc p : ModuleState × List (String × MSchema)),
      dfields.foldlM (compileDefStep fuel mp) acc = .ok p →
      ∀ k, k ∉ acc.2.map Prod.fst → k ∉ dfields.map Prod.fst →
      k ∉ p.2.map Prod.fst := by
  intro dfields
  induction dfields with
  | nil =>
    intro fuel mp acc p h k hacc _
    simp only [List.foldlM_nil, pure, Except.pure, Except.ok.injEq] at h
    rw [← h]
    exact hacc
  | cons kv rest ih =>
    intro fuel mp acc p h k hacc hmem
    rw [List.foldlM_cons, except_bind_ok] at h
    obtain ⟨acc1, hstep, h⟩ := h
    simp only [List.map_cons, List.mem_cons] at hmem
    push_neg at hmem
    refine ih fuel mp acc1 p h k ?_ hmem.2
    rcases compileDefStep_schemas_shape _ _ _ _ _ hstep with hs | ⟨sch, hs⟩
    · rw [hs]; exact hacc
    · rw [hs]
      simp only [List.map_append, List.mem_append]
      rintro (hc | hc)
      · exact hacc hc
      · simp only [List.map_cons, List.mem_singleton] at hc
        exact hmem.1 (by simpa using hc)

theorem fold_excluded_key :
    ∀ (dfields : List (String × Val)) (fuel : Nat) (mp : String)
      (acc p : ModuleState × List (String × MSchema)),
      dfields.foldlM (compileDefStep fuel mp) acc = .ok p →
      (dfields.map Prod.fst).Nodup →
      ∀ k d, (k, d) ∈ dfields →
        truthy ((d.get mp).get "exclude-schema") = true →
        k ∉ acc.2.map Prod.fst → k ∉ p.2.map Prod.fst := by
  intro dfields
  induction dfields with
  | nil =>
    intro fuel mp acc p h _ k d hmem
    simp at hmem
  | cons kv rest ih =>
    intro fuel mp acc p h hnd k d hmem hexcl hacc
    rw [List.foldlM_cons, except_bind_ok] at h
    obtain ⟨acc1, hstep, h⟩ := h
    simp only [List.map_cons, List.nodup_cons] at hnd
    rcases List.mem_cons.mp hmem with heq | hmem'
    · -- this very definition: the step records the exclusion and skips
      obtain ⟨st0, schemas0⟩ := acc
      rw [show kv = (k, d) from heq.symm] at hstep
      rw [compileDefStep_excluded fuel mp st0 schemas0 k d hexcl] at hstep
      simp only [Except.ok.injEq] at hstep
      refine fold_keys_sub rest fuel mp acc1 p h k ?_ ?_
      · rw [← hstep]
        exact hacc
      · rw [show kv = (k, d) from heq.symm] at hnd
        exact hnd.1
    · -- a later definition: this step can only add its own key
      refine ih fuel mp acc1 p h hnd.2 k d hmem' hexcl ?_
      rcases compileDefStep_schemas_shape _ _ _ _ _ hstep with hs | ⟨sch, hs⟩
      · rw [hs]; exact hacc
      · rw [hs]
        simp only [List.map_append, List.mem_append]
        rintro (hc | hc)
        · exact hacc hc
        · simp only [List.map_cons, List.mem_singleton] at hc
          have hkkv : k = kv.1 := by simpa using hc
          have : k ∈ rest.map Prod.fst :=
            List.mem_map.mpr ⟨(k, d), hmem', rfl⟩
          rw [hkkv] at this
          exact hnd.1 this

theorem fold_global_excluded :
    ∀ (dfields : List (String × Val)) (fuel : Nat) (mp : String)
      (acc p : ModuleState × List (String × MSchema)),
      dfields.foldlM (compileDefStep fuel mp) acc = .ok p →
      truthy (getF acc.1.excludeSchema mp) = true →
      p.2 = acc.2 := by
  intro dfields
  induction dfields with
  | nil =>
    intro fuel mp acc p h _
    simp only [List.foldlM_nil, pure, Except.pure, Except.ok.injEq] at h
    rw [← h]
  | cons kv rest ih =>
    intro fuel mp acc p h hglob
    rw [List.foldlM_cons, except_bind_ok] at h
    obtain ⟨acc1, hstep, h⟩ := h
    obtain ⟨hg1, he1⟩ := compileDefStep_global_excluded _ _ _ _ _ hstep hglob
    rw [ih fuel mp acc1 p h hg1, he1]

/-- The version switch as `compile` detects it from the document: the
document's `swagger` field when truthy, otherwise the state's remembered
version. -/
def detectedV2 (st : ModuleState) (doc : Val) : Bool :=
  isAtLeastSwagger2
    (if truthy (doc.get "swagger")
     then { st with swaggerVersion := jsToNumber (doc.get "swagger") }
     else st).swaggerVersion

/-- The module state with which `compile` enters its per-definition loop:
version detected, merged definitions installed, document-level
extension-metadata block registered. -/
def loopState (st : ModuleState) (doc defs : Val) : ModuleState :=
  let st1 := if truthy (doc.get "swagger")
             then { st with swaggerVersion := jsToNumber (doc.get "swagger") }
             else st
  let st2 := { st1 with definitions := defs }
  let mp := mongoosePropName (detectedV2 st doc)
  if truthy (doc.get mp) then processMongooseDefinition st2 mp (doc.get mp)
  else st2

theorem loopState_definitions (st : ModuleState) (doc defs : Val) :
    (loopState st doc defs).definitions = defs := by
  unfold loopState
  simp only []
  split
  · rw [processMongooseDefinition_definitions]
  · rfl

/-- `compile`, decomposed: a successful run decodes the document, merges
`extraDefinitions` into the registry, and folds the per-definition step
over the merged registry from the loop-entry state; the result repeats the
accumulated schema list as the models map. -/
theorem compile_decomp :
    ∀ (fuel : Nat) (st : ModuleState) (spec extra : Val)
      (st' : ModuleState) (res : CompileResult),
      compile fuel st spec extra = .ok (st', res) →
      ∃ doc defs,
        convertToJSON spec = .ok doc ∧
        applyExtraDefinitions (detectedV2 st doc) (doc.get "definitions")
          extra = .ok defs ∧
        ∃ p : ModuleState × List (String × MSchema),
          (match defs with
           | .obj dfields =>
             dfields.foldlM
               (compileDefStep fuel (mongoosePropName (detectedV2 st doc)))
               (loopState st doc defs, [])
           | _ => pure (loopState st doc defs, [])) = .ok p ∧
          st' = p.1 ∧ res = ⟨p.2, p.2⟩ := by
  intro fuel st spec extra st' res h
  unfold compile at h
  split at h
  · exact absurd h (by simp)
  · rw [except_bind_ok] at h
    obtain ⟨doc, hdoc, h⟩ := h
    try simp only [] at h
    rw [except_bind_ok] at h
    obtain ⟨defs, happ, h⟩ := h
    try simp only [] at h
    change (match (loopState st doc defs).definitions with
            | .obj dfields =>
              dfields.foldlM
                (compileDefStep fuel (mongoosePropName (detectedV2 st doc)))
                (loopState st doc defs, [])
            | _ => pure (loopState st doc defs, [])) >>=
          (fun p => pure (p.1, ⟨p.2, p.2⟩)) = Except.ok (st', res) at h
    rw [loopState_definitions] at h
    rw [except_bind_ok] at h
    obtain ⟨p, hfold, h⟩ := h
    simp only [pure, Except.pure, Except.ok.injEq, Prod.mk.injEq] at h
    exact ⟨doc, defs, hdoc, happ, p, hfold, h.1.symm, h.2.symm⟩

theorem loopState_excludeSchema_global (st : ModuleState) (doc defs : Val)
    (h : truthy ((doc.get (mongoosePropName (detectedV2 st doc))).get
      "exclude-schema") = true) :
    truthy (getF (loopState st doc defs).excludeSchema
      (mongoosePropName (detectedV2 st doc))) = true := by
  unfold loopState
  simp only []
  rw [if_pos (truthy_of_truthy_get _ _ h)]
  rw [processMongooseDefinition_excludeSchema_set _ _ _ h]
  exact h

theorem compile_skips_excluded_definition :
    ∀ (fuel : Nat) (st : ModuleState) (spec extra : Val)
      (st' : ModuleState) (res : CompileResult) (doc : Val)
      (dfields : List (String × Val)),
      compile fuel st spec extra = .ok (st', res) →
      convertToJSON spec = .ok doc →
      applyExtraDefinitions (detectedV2 st doc) (doc.get "definitions")
        extra = .ok (.obj dfields) →
      (dfields.map Prod.fst).Nodup →
      ∀ k d, (k, d) ∈ dfields →
        truthy ((d.get (mongoosePropName (detectedV2 st doc))).get
          "exclude-schema") = true →
        k ∉ res.schemas.map Prod.fst ∧ k ∉ res.models.map Prod.fst := by
  intro fuel st spec extra st' res doc dfields hc hdoc happ hnd k d hmem hexcl
  obtain ⟨doc0, defs0, hdoc0, happ0, p, hfold, hst, hres⟩ :=
    compile_decomp fuel st spec extra st' res hc
  rw [hdoc] at hdoc0
  injection hdoc0 with hdoc0
  subst hdoc0
  rw [happ] at happ0
  injection happ0 with happ0
  subst happ0
  have hk : k ∉ p.2.map Prod.fst :=
    fold_excluded_key dfields fuel _ _ p hfold hnd k d hmem hexcl (by simp)
  rw [hres]
  exact ⟨hk, hk⟩

theorem compile_global_exclusion_emits_nothing :
    ∀ (fuel : Nat) (st : ModuleState) (spec extra : Val)
      (st' : ModuleState) (res : CompileResult) (doc : Val),
      compile fuel st spec extra = .ok (st', res) →
      convertToJSON spec = .ok doc →
      truthy ((doc.get (mongoosePropName (detectedV2 st doc))).get
        "exclude-schema") = true →
      res.schemas = [] ∧ res.models = [] := by
  intro fuel st spec extra st' res doc hc hdoc hglob
  obtain ⟨doc0, defs0, hdoc0, happ0, p, hfold, hst, hres⟩ :=
    compile_decomp fuel st spec extra st' res hc
  rw [hdoc] at hdoc0
  injection hdoc0 with hdoc0
  subst hdoc0
  have hls := loopState_excludeSchema_global st doc defs0 hglob
  have hp2 : p.2 = [] := by
    split at hfold
    · exact fold_global_excluded _ _ _ _ _ hfold hls
    · simp only [pure, Except.pure, Except.ok.injEq] at hfold
      rw [← hfold]
  rw [hres, hp2]
  exact ⟨rfl, rfl⟩

/-- The concrete C6 scenario: `House` is excluded through its own
extension-metadata block while `Person` references `House` through an
array-items pointer. -/
def excludedHouseDoc : Val := .obj [
  ("swagger", .str "2.0"),
  ("definitions", .obj [
    ("House", .obj [
      ("x-swagger-mongoose", .obj [("exclude-schema", .bool true)]),
      ("required", .arr [.str "lng", .str "lat"] []),
      ("properties", .obj [
        ("description", .obj [("type", .str "string")]),
        ("lng", .obj [("type", .str "double")]),
        ("lat", .obj [("type", .str "double")])])]),
    ("Person", .obj [
      ("required", .arr [.str "login"] []),
      ("properties", .obj [
        ("login", .obj [("type", .str "string")]),
        ("houses", .obj [("type", .str "array"),
          ("items", .obj [("$ref", .str "#/definitions/House")])])])])])]

/-- The schema `compile` emits for `Person` in `excludedHouseDoc`: the
excluded `House` definition still resolves, its structure embedded with
the extension-metadata block stripped. -/
def personOnlySchema : MSchema :=
  ⟨[("login", .obj [("type", .ctor .string), ("required", .bool true)]),
    ("houses", .arr [.obj [
      ("description", .obj [("type", .ctor .string)]),
      ("lng", .obj [("type", .ctor .number), ("required", .bool true)]),
      ("lat", .obj [("type", .ctor .number), ("required", .bool true)])]] [])],
   [], []⟩

set_option maxHeartbeats 2000000 in
/-- C6: a definition marked as excluded contributes nothing to the result.
First conjunct: in any successful run, a definition of the merged registry
whose own extension-metadata block carries a truthy `exclude-schema` owns
no entry of the returned `schemas` or `models` maps.  Second conjunct: a
truthy `exclude-schema` in the document-level (global) block suppresses
every emission.  Third conjunct, concretely: compiling `excludedHouseDoc`
emits only `Person`, whose `houses` field still embeds the excluded
`House` definition's fully compiled structure. -/
theorem c6_excluded_definitions_emit_nothing :
    (∀ (fuel : Nat) (st : ModuleState) (spec extra : Val)
      (st' : ModuleState) (res : CompileResult) (doc : Val)
      (dfields : List (String × Val)),
      compile fuel st spec extra = .ok (st', res) →
      convertToJSON spec = .ok doc →
      applyExtraDefinitions (detectedV2 st doc) (doc.get "definitions")
        extra = .ok (.obj dfields) →
      (dfields.map Prod.fst).Nodup →
      ∀ k d, (k, d) ∈ dfields →
        truthy ((d.get (mongoosePropName (detectedV2 st doc))).get
          "exclude-schema") = true →
        k ∉ res.schemas.map Prod.fst ∧ k ∉ res.models.map Prod.fst) ∧
    (∀ (fuel : Nat) (st : ModuleState) (spec extra : Val)
      (st' : ModuleState) (res : CompileResult) (doc : Val),
      compile fuel st spec extra = .ok (st', res) →
      convertToJSON spec = .ok doc →
      truthy ((doc.get (mongoosePropName (detectedV2 st doc))).get
        "exclude-schema") = true →
      res.schemas = [] ∧ res.models = []) ∧
    (∃ st', compile 20 freshModuleState excludedHouseDoc .null =
      .ok (st', ⟨[("Person", personOnlySchema)], [("Person", personOnlySchema)]⟩)) :=
  ⟨compile_skips_excluded_definition, compile_global_exclusion_emits_nothing,
   ⟨_, rfl⟩⟩

set_option maxHeartbeats 2000000 in
/-- Witness for C6: the exclusion theorem instantiated on
`excludedHouseDoc` — `House` is marked excluded there and is indeed absent
from both result maps. -/
theorem c6_excluded_definitions_witness :
    "House" ∉ (CompileResult.mk [("Person", personOnlySchema)]
        [("Person", personOnlySchema)]).schemas.map Prod.fst ∧
    "House" ∉ (CompileResult.mk [("Person", personOnlySchema)]
        [("Person", personOnlySchema)]).models.map Prod.fst := by
  refine c6_excluded_definitions_emit_nothing.1 20 freshModuleState
    excludedHouseDoc .null
    ⟨Val.obj [
      ("House", .obj [
        ("x-swagger-mongoose", .obj [("exclude-schema", .bool true)]),
        ("required", .arr [.str "lng", .str "lat"] []),
        ("properties", .obj [
          ("description", .obj [("type", .str "string")]),
          ("lng", .obj [("type", .str "double")]),
          ("lat", .obj [("type", .str "double")])])]),
      ("Person", .obj [
        ("required", .arr [.str "login"] []),
        ("properties", .obj [
          ("login", .obj [("type", .str "string")]),
          ("houses", .obj [("type", .str "array"),
            ("items", .obj [("$ref", .str "#/definitions/House")])])])])],
      some 2, [], [], [("House", .bool true)], [], none⟩
    ⟨[("Person", personOnlySchema)], [("Person", personOnlySchema)]⟩
    excludedHouseDoc _ rfl rfl rfl (by simp) "House"
    (.obj [
      ("x-swagger-mongoose", .obj [("exclude-schema", .bool true)]),
      ("required", .arr [.str "lng", .str "lat"] []),
      ("properties", .obj [
        ("description", .obj [("type", .str "string")]),
        ("lng", .obj [("type", .str "double")]),
        ("lat", .obj [("type", .str "double")])])])
    (by simp) rfl

theorem setF_setF_same :
    ∀ (l : List (String × Val)) (k : String) (a b : Val),
      setF (setF l k a) k b = setF l k b := by
  intro l k a b
  induction l with
  | nil => simp [setF]
  | cons kv rest ih =>
    by_cases h : kv.1 = k <;> simp [setF, h, ih]

theorem Val.set_set_same (v : Val) (k : String) (a b : Val) :
    (v.set k a).set k b = v.set k b := by
  cases v <;> simp [Val.set, setF_setF_same]

theorem Val.get_set_other (v : Val) (k k' : String) (x : Val) (h : k' ≠ k) :
    (v.set k x).get k' = v.get k' := by
  cases v <;> simp [Val.set, Val.get, getF_setF_other _ _ _ _ h]

theorem installLoop_semantics :
    ∀ (efields : List (String × Val)) (mp : String)
      (g : List (String × Val)) (defs' : Val),
      efields.foldlM
        (fun defs kv =>
          match Val.get defs kv.1 with
          | Val.null => Except.error MErr.typeError
          | dv => Except.ok (Val.set defs kv.1 (Val.set dv mp kv.2)))
        (Val.obj g) = .ok defs' →
      (efields.map Prod.fst).Nodup →
      ∃ g', defs' = .obj g' ∧
        (∀ k, k ∉ efields.map Prod.fst → getF g' k = getF g k) ∧
        (∀ k v, (k, v) ∈ efields → getF g' k = (getF g k).set mp v) := by
  intro efields
  induction efields with
  | nil =>
    intro mp g defs' h _
    simp only [List.foldlM_nil, pure, Except.pure, Except.ok.injEq] at h
    exact ⟨g, h.symm, fun k _ => rfl, fun k v hv => absurd hv (by simp)⟩
  | cons kv rest ih =>
    intro mp g defs' h hnd
    obtain ⟨k0, v0⟩ := kv
    rw [List.foldlM_cons, except_bind_ok] at h
    obtain ⟨defs1, hstep, h⟩ := h
    simp only [List.map_cons, List.nodup_cons] at hnd
    cases hg : Val.get (.obj g) k0 with
    | null => rw [hg] at hstep; exact absurd hstep (by simp)
    | _ =>
      rw [hg] at hstep
      simp only [Except.ok.injEq] at hstep
      rw [← hstep, ← hg] at h
      rw [show Val.set (.obj g) k0 ((Val.get (.obj g) k0).set mp v0) =
          Val.obj (setF g k0 ((getF g k0).set mp v0)) from rfl] at h
      obtain ⟨g', hdefs', hout, hin⟩ := ih mp (setF g k0 ((getF g k0).set mp v0))
        defs' h hnd.2
      refine ⟨g', hdefs', ?_, ?_⟩
      · intro k hk
        simp only [List.map_cons, List.mem_cons, not_or] at hk
        rw [hout k hk.2, getF_setF_other _ _ _ _ hk.1]
      · intro k v hv
        rcases List.mem_cons.mp hv with heq | hmem
        · injection heq with h1 h2
          subst h1; subst h2
          rw [hout k hnd.1, getF_setF_same]
        · have hne : k ≠ k0 := by
            intro he
            exact hnd.1 (he ▸ List.mem_map.mpr ⟨(k, v), hmem, rfl⟩)
          rw [hin k v hmem, getF_setF_other _ _ _ _ hne]

theorem getF_map_set_mem :
    ∀ (l : List (String × Val)) (mp : String) (d : Val) (k : String),
      k ∈ l.map Prod.fst →
      getF (l.map fun kv => (kv.1, kv.2.set mp d)) k = (getF l k).set mp d := by
  intro l mp d k hk
  induction l with
  | nil => simp at hk
  | cons kv rest ih =>
    by_cases h : kv.1 = k
    · simp [getF, h]
    · simp only [List.map_cons, List.mem_cons] at hk
      rcases hk with hk | hk
      · exact absurd hk.symm h
      · simp [getF, h, ih hk]

theorem getF_map_set_not_mem :
    ∀ (l : List (String × Val)) (mp : String) (d : Val) (k : String),
      k ∉ l.map Prod.fst →
      getF (l.map fun kv => (kv.1, kv.2.set mp d)) k = Val.null := by
  intro l mp d k hk
  induction l with
  | nil => simp [getF]
  | cons kv rest ih =>
    simp only [List.map_cons, List.mem_cons, not_or] at hk
    simp [getF, Ne.symm hk.1, ih hk.2]

theorem applyExtraDefinitions_semantics
    (isV2 : Bool) (dfields efields : List (String × Val)) (defs' : Val)
    (h : applyExtraDefinitions isV2 (.obj dfields) (.obj efields) = .ok defs')
    (hdef : truthy (getF efields "default") = true)
    (hnd : ((delF efields "default").map Prod.fst).Nodup)
    (hcov : ∀ k, k ∈ (delF efields "default").map Prod.fst →
        k ∈ dfields.map Prod.fst) :
    ∃ g', defs' = .obj g' ∧
      (∀ k, k ∈ dfields.map Prod.fst →
        k ∉ (delF efields "default").map Prod.fst →
        getF g' k =
          (getF dfields k).set (mongoosePropName isV2) (getF efields "default")) ∧
      (∀ k v, (k, v) ∈ delF efields "default" →
        getF g' k = (getF dfields k).set (mongoosePropName isV2) v) := by
  unfold applyExtraDefinitions at h
  rw [if_neg (by simp [truthy])] at h
  try simp only [] at h
  rw [if_neg (by simp [hdef])] at h
  try simp only [] at h
  obtain ⟨g', hdefs', hout, hin⟩ :=
    installLoop_semantics (delF efields "default") (mongoosePropName isV2)
      (dfields.map fun kv => (kv.1, kv.2.set (mongoosePropName isV2) (getF efields "default")))
      defs' h hnd
  refine ⟨g', hdefs', ?_, ?_⟩
  · intro k hk hke
    rw [hout k hke, getF_map_set_mem _ _ _ _ hk]
  · intro k v hv
    have hkmem : k ∈ (delF efields "default").map Prod.fst :=
      List.mem_map.mpr ⟨(k, v), hv, rfl⟩
    rw [hin k v hv, getF_map_set_mem _ _ _ _ (hcov k hkmem),
      Val.set_set_same]

/-- A two-definition Swagger 2.0 document used for the `extraDefinitions`
scenarios: `A {a: string}` and `B {b: string}`, no inline extension
metadata. -/
def docC7 : Val := .obj [
  ("swagger", .str "2.0"),
  ("definitions", .obj [
    ("A", .obj [("properties", .obj [("a", .obj [("type", .str "string")])])]),
    ("B", .obj [("properties", .obj [("b", .obj [("type", .str "string")])])])])]

/-- `extraDefinitions` carrying only the reserved `default` entry with
`schema-options: {timestamps: true}`. -/
def extraDefault : Val := .obj [
  ("default", .obj [("schema-options", .obj [("timestamps", .bool true)])])]

/-- `extraDefinitions` with the same `default` entry plus a
definition-specific entry for `B` that overrides `timestamps` to `false`. -/
def extraWithB : Val := .obj [
  ("default", .obj [("schema-options", .obj [("timestamps", .bool true)])]),
  ("B", .obj [("schema-options", .obj [("timestamps", .bool false)])])]

/-- The schema `compile` emits for a one-string-field definition under
resolved schema options `{timestamps: ts}`. -/
def stringPropSchema (field : String) (ts : Bool) : MSchema :=
  ⟨[(field, .obj [("type", .ctor .string)])], [("timestamps", .bool ts)], []⟩

set_option maxHeartbeats 2000000 in
/-- C7: merging `extraDefinitions` into the definition registry.  First
conjunct (`applyExtraDefinitions` semantics): when the reserved `default`
entry is present (and the remaining extra keys are distinct and name
existing definitions), every definition key not named by another extra
entry gets the `default` block installed as its extension-metadata block,
and every definition named by a non-`default` extra entry gets that entry
installed verbatim, overwriting the broadcast default.  Second conjunct:
compiling `docC7` with `extraDefault` gives both emitted schemas resolved
options `{timestamps: true}`.  Third conjunct: adding a `B`-specific entry
overrides the default for `B` only (`A` keeps `timestamps: true`, `B` gets
`timestamps: false`). -/
theorem c7_extra_definitions_merge :
    (∀ (isV2 : Bool) (dfields efields : List (String × Val)) (defs' : Val),
      applyExtraDefinitions isV2 (.obj dfields) (.obj efields) = .ok defs' →
      truthy (getF efields "default") = true →
      ((delF efields "default").map Prod.fst).Nodup →
      (∀ k, k ∈ (delF efields "default").map Prod.fst →
        k ∈ dfields.map Prod.fst) →
      ∃ g', defs' = .obj g' ∧
        (∀ k, k ∈ dfields.map Prod.fst →
          k ∉ (delF efields "default").map Prod.fst →
          getF g' k = (getF dfields k).set (mongoosePropName isV2)
            (getF efields "default")) ∧
        (∀ k v, (k, v) ∈ delF efields "default" →
          getF g' k = (getF dfields k).set (mongoosePropName isV2) v)) ∧
    (∃ st', compile 20 freshModuleState docC7 extraDefault =
      .ok (st', ⟨[("A", stringPropSchema "a" true),
                  ("B", stringPropSchema "b" true)],
                 [("A", stringPropSchema "a" true),
                  ("B", stringPropSchema "b" true)]⟩)) ∧
    (∃ st', compile 20 freshModuleState docC7 extraWithB =
      .ok (st', ⟨[("A", stringPropSchema "a" true),
                  ("B", stringPropSchema "b" false)],
                 [("A", stringPropSchema "a" true),
                  ("B", stringPropSchema "b" false)]⟩)) :=
  ⟨applyExtraDefinitions_semantics, ⟨_, rfl⟩, ⟨_, rfl⟩⟩

/-- Witness for C7: the merge theorem instantiated on one definition `A`
and extra entries `{default: optsTrue, A: optsFalse}` — the `A`-specific
entry wins over the broadcast default. -/
theorem c7_extra_definitions_witness :
    ∃ g', Val.obj [("A", .obj [
        ("properties", .obj [("a", .obj [("type", .str "string")])]),
        ("x-swagger-mongoose",
          .obj [("schema-options", .obj [("timestamps", .bool false)])])])] =
        .obj g' ∧
      (∀ k, k ∈ ([("A", Val.obj [("properties",
            Val.obj [("a", Val.obj [("type", Val.str "string")])])])].map
            Prod.fst) →
        k ∉ ((delF [("default", Val.obj [("schema-options",
              Val.obj [("timestamps", Val.bool true)])]),
            ("A", Val.obj [("schema-options",
              Val.obj [("timestamps", Val.bool false)])])] "default").map
            Prod.fst) →
        getF g' k = (getF [("A", Val.obj [("properties",
            Val.obj [("a", Val.obj [("type", Val.str "string")])])])] k).set
          (mongoosePropName true)
          (getF [("default", Val.obj [("schema-options",
              Val.obj [("timestamps", Val.bool true)])]),
            ("A", Val.obj [("schema-options",
              Val.obj [("timestamps", Val.bool false)])])] "default")) ∧
      (∀ k v, (k, v) ∈ delF [("default", Val.obj [("schema-options",
            Val.obj [("timestamps", Val.bool true)])]),
          ("A", Val.obj [("schema-options",
            Val.obj [("timestamps", Val.bool false)])])] "default" →
        getF g' k = (getF [("A", Val.obj [("properties",
            Val.obj [("a", Val.obj [("type", Val.str "string")])])])] k).set
          (mongoosePropName true) v) :=
  c7_extra_definitions_merge.1 true
    [("A", .obj [("properties", .obj [("a", .obj [("type", .str "string")])])])]
    [("default", .obj [("schema-options", .obj [("timestamps", .bool true)])]),
     ("A", .obj [("schema-options", .obj [("timestamps", .bool false)])])]
    (.obj [("A", .obj [
        ("properties", .obj [("a", .obj [("type", .str "string")])]),
        ("x-swagger-mongoose",
          .obj [("schema-options", .obj [("timestamps", .bool false)])])])])
    rfl rfl (by simp [delF]) (by simp [delF])
